import Mathlib

/-!
# Verification of the Vura wall-space geometry engine

Shallow embedding of the repository's core numeric code:

* `perspectiveCorrection.ts` — `PerspectiveTransformer` (homography between
  two quadrilaterals, Gaussian elimination with partial pivoting);
* `layoutEngine.ts` — `LayoutEngine` (calibration arithmetic and the
  placement strategies), plus the centerline and suggest-spot logic of the
  main page component.

JavaScript numbers are modelled as exact rationals (`ℚ`); `x / 0` is the
Lean convention `0` where the source would produce `NaN`/`Infinity`.
-/

namespace Vura

/-- The `Point` record of `perspectiveCorrection.ts`: `{ x: number; y: number }`. -/
@[ext]
structure Point where
  x : ℚ
  y : ℚ
  deriving DecidableEq, Repr

/-- The `ArtPiece` record of the page component:
`{ id: number; url: string; x; y; width; height }`. -/
@[ext]
structure ArtPiece where
  id : ℚ
  url : String
  x : ℚ
  y : ℚ
  width : ℚ
  height : ℚ
  deriving DecidableEq, Repr

/-! ## Gaussian elimination (`solveGaussian` in `perspectiveCorrection.ts`)

The source works on a mutable `n × n` row-major array `A` and vector `B`.
We embed the state as a pair of functions `(Fin n → Fin n → ℚ) × (Fin n → ℚ)`
and each loop as a recursion.
-/

section Gauss

variable {n : ℕ}

/-- The row swap `[A[i], A[maxRow]] = [A[maxRow], A[i]]` (also used for `B`). -/
def swapIdx (i p : Fin n) (f : Fin n → α) : Fin n → α :=
  fun r => if r = i then f p else if r = p then f i else f r

/-- The pivot search: `maxRow` starts at `i` and each `j` from `i+1` to `n-1`
replaces it when `|A[j][i]| > |A[maxRow][i]|`. -/
def findPivot (A : Fin n → Fin n → ℚ) (i : Fin n) : Fin n :=
  (List.finRange n).foldl
    (fun maxRow j => if i < j ∧ |A maxRow i| < |A j i| then j else maxRow) i

/-- One iteration of the outer `for i` loop of `solveGaussian`: partial
pivoting, then elimination of column `i` from the rows below `i`
(`factor = A[j][i] / A[i][i]`, `B[j] -= factor * B[i]`,
`A[j][k] -= factor * A[i][k]` for `k ≥ i`). -/
def elimStep (s : (Fin n → Fin n → ℚ) × (Fin n → ℚ)) (i : Fin n) :
    (Fin n → Fin n → ℚ) × (Fin n → ℚ) :=
  let p := findPivot s.1 i
  let A1 := swapIdx i p s.1
  let B1 := swapIdx i p s.2
  (fun j k => if i < j ∧ i ≤ k then A1 j k - A1 j i / A1 i i * A1 i k else A1 j k,
   fun j => if i < j then B1 j - A1 j i / A1 i i * B1 i else B1 j)

/-- State of `(A, B)` after the first `m` iterations of the outer loop. -/
def elimUpTo (A : Fin n → Fin n → ℚ) (B : Fin n → ℚ) : ℕ → (Fin n → Fin n → ℚ) × (Fin n → ℚ)
  | 0 => (A, B)
  | m + 1 => if h : m < n then elimStep (elimUpTo A B m) ⟨m, h⟩ else elimUpTo A B m

/-- Forward elimination: all `n` iterations of the outer loop. -/
def forwardElim (A : Fin n → Fin n → ℚ) (B : Fin n → ℚ) :
    (Fin n → Fin n → ℚ) × (Fin n → ℚ) :=
  elimUpTo A B n

/-- Back substitution, as in the source: `x` starts as `new Array(n).fill(0)`
and the loop runs `i` from `n-1` down to `0`, setting
`x[i] = (B[i] - ∑_{j>i} A[i][j] * x[j]) / A[i][i]`.  The counter `m+1`
performs the iteration with `i = m` and recurses. -/
def backSubLoop (A : Fin n → Fin n → ℚ) (B : Fin n → ℚ) : ℕ → (Fin n → ℚ) → Fin n → ℚ
  | 0, x => x
  | m + 1, x =>
    if h : m < n then
      let i : Fin n := ⟨m, h⟩
      backSubLoop A B m (Function.update x i
        ((B i - ∑ j ∈ Finset.univ.filter (fun j => i < j), A i j * x j) / A i i))
    else backSubLoop A B m x

/-- Function `solveGaussian(A, B)`: forward elimination then back substitution. -/
def solveGaussian (A : Fin n → Fin n → ℚ) (B : Fin n → ℚ) : Fin n → ℚ :=
  backSubLoop (forwardElim A B).1 (forwardElim A B).2 n (fun _ => 0)

/-- The operational non-degeneracy test of the source/spec: every pivot
encountered during elimination is nonzero.  (Row `r` is frozen after
iteration `r`, so the pivot of iteration `r` is the final diagonal entry.) -/
def GaussOk (A : Fin n → Fin n → ℚ) (B : Fin n → ℚ) : Prop :=
  ∀ r : Fin n, (forwardElim A B).1 r r ≠ 0

instance (A : Fin n → Fin n → ℚ) (B : Fin n → ℚ) : Decidable (GaussOk A B) := by
  unfold GaussOk; infer_instance

/-- The pivot search never selects a row above `i`. -/
lemma findPivot_ge (A : Fin n → Fin n → ℚ) (i : Fin n) : i ≤ findPivot A i := by
  unfold findPivot
  have key : ∀ (l : List (Fin n)) (acc : Fin n), i ≤ acc →
      i ≤ l.foldl (fun maxRow j => if i < j ∧ |A maxRow i| < |A j i| then j else maxRow) acc := by
    intro l
    induction l with
    | nil => intro acc h; exact h
    | cons a t ih =>
      intro acc h
      simp only [List.foldl_cons]
      apply ih
      by_cases hc : i < a ∧ |A acc i| < |A a i|
      · rw [if_pos hc]; exact le_of_lt hc.1
      · rw [if_neg hc]; exact h
  exact key _ i le_rfl

/-- Lemma: `swapIdx` is evaluation after the transposition `Equiv.swap i p`. -/
lemma swapIdx_eq_swap_apply (i p : Fin n) (f : Fin n → α) (r : Fin n) :
    swapIdx i p f r = f (Equiv.swap i p r) := by
  unfold swapIdx
  rw [Equiv.swap_apply_def]
  split_ifs <;> rfl

lemma elimUpTo_succ (A : Fin n → Fin n → ℚ) (B : Fin n → ℚ) (m : ℕ) (h : m < n) :
    elimUpTo A B (m + 1) = elimStep (elimUpTo A B m) ⟨m, h⟩ := by
  simp [elimUpTo, h]

/-- Lemma: `elimStep` at column `i` does not touch rows above `i`. -/
lemma elimStep_row_lt (s : (Fin n → Fin n → ℚ) × (Fin n → ℚ)) (i r : Fin n) (h : r < i) :
    (elimStep s i).1 r = s.1 r ∧ (elimStep s i).2 r = s.2 r := by
  have hp := findPivot_ge s.1 i
  have hri : r ≠ i := ne_of_lt h
  have hrp : r ≠ findPivot s.1 i := ne_of_lt (lt_of_lt_of_le h hp)
  have hnot : ¬ i < r := not_lt_of_gt h
  constructor
  · funext k
    simp only [elimStep]
    rw [if_neg (fun hc => hnot hc.1)]
    unfold swapIdx
    rw [if_neg hri, if_neg hrp]
  · simp only [elimStep]
    rw [if_neg hnot]
    unfold swapIdx
    rw [if_neg hri, if_neg hrp]

/-- After iteration `m`, row `m` (and every earlier row) is frozen. -/
lemma elimUpTo_frozen (A : Fin n → Fin n → ℚ) (B : Fin n → ℚ) {m m' : ℕ} (hmm : m ≤ m')
    (r : Fin n) (hr : r.1 < m) :
    (elimUpTo A B m').1 r = (elimUpTo A B m).1 r ∧
      (elimUpTo A B m').2 r = (elimUpTo A B m).2 r := by
  induction m' , hmm using Nat.le_induction with
  | base => exact ⟨rfl, rfl⟩
  | succ m' hmm ih =>
    by_cases h : m' < n
    · rw [elimUpTo_succ A B m' h]
      have hlt : r < (⟨m', h⟩ : Fin n) := by
        show r.1 < m'
        omega
      have hstep := elimStep_row_lt (elimUpTo A B m') ⟨m', h⟩ r hlt
      exact ⟨hstep.1.trans ih.1, hstep.2.trans ih.2⟩
    · have : elimUpTo A B (m' + 1) = elimUpTo A B m' := by simp [elimUpTo, h]
      rw [this]
      exact ih

/-- In `elimStep`, row `i` itself is only swapped, not recombined. -/
lemma elimStep_row_self (s : (Fin n → Fin n → ℚ) × (Fin n → ℚ)) (i : Fin n) :
    (elimStep s i).1 i = s.1 (findPivot s.1 i) ∧
      (elimStep s i).2 i = s.2 (findPivot s.1 i) := by
  constructor
  · funext k
    simp only [elimStep]
    rw [if_neg (fun hc => lt_irrefl i hc.1)]
    unfold swapIdx
    rw [if_pos rfl]
  · simp only [elimStep]
    rw [if_neg (lt_irrefl i)]
    unfold swapIdx
    rw [if_pos rfl]

/-- The final row `m` of forward elimination is the row selected by partial
pivoting at iteration `m`; in particular the final diagonal entry `U m m`
is the pivot used at iteration `m`. -/
lemma forwardElim_row (A : Fin n → Fin n → ℚ) (B : Fin n → ℚ) (m : ℕ) (h : m < n) :
    (forwardElim A B).1 ⟨m, h⟩ =
      (elimUpTo A B m).1 (findPivot (elimUpTo A B m).1 ⟨m, h⟩) := by
  have h1 : (forwardElim A B).1 ⟨m, h⟩ = (elimUpTo A B (m + 1)).1 ⟨m, h⟩ :=
    (elimUpTo_frozen A B h (r := ⟨m, h⟩) (Nat.lt_succ_self m)).1
  rw [h1, elimUpTo_succ A B m h]
  exact (elimStep_row_self (elimUpTo A B m) ⟨m, h⟩).1

/-- Below-diagonal zeros: after the first `m` iterations, all entries in
columns `< m` strictly below the diagonal have been eliminated (this needs
every pivot to be nonzero, i.e. `GaussOk`). -/
lemma elimUpTo_zeros (A : Fin n → Fin n → ℚ) (B : Fin n → ℚ) (Hdiag : GaussOk A B) :
    ∀ m, m ≤ n → ∀ r c : Fin n, c.1 < m → c < r → (elimUpTo A B m).1 r c = 0 := by
  intro m
  induction m with
  | zero => intro _ r c hc _; omega
  | succ m ih =>
    intro hm1 r c hc hcr
    have hmn : m < n := by omega
    rw [elimUpTo_succ A B m hmn]
    have hp := findPivot_ge (elimUpTo A B m).1 (⟨m, hmn⟩ : Fin n)
    simp only [elimStep]
    rcases Nat.lt_or_ge c.1 m with hcm | hcm
    · rw [if_neg (fun hc2 => absurd hc2.2 (by
        show ¬ ((⟨m, hmn⟩ : Fin n) ≤ c)
        simp only [Fin.le_def]
        omega))]
      rw [swapIdx_eq_swap_apply]
      apply ih (by omega) _ c hcm
      rw [Equiv.swap_apply_def]
      split_ifs with h1 h2
      · show c.1 < (findPivot (elimUpTo A B m).1 ⟨m, hmn⟩ : Fin n).1
        have := hp
        simp only [Fin.le_def] at this
        omega
      · show c.1 < m
        omega
      · exact hcr
    · have hcm' : c.1 = m := by omega
      have hci : c = (⟨m, hmn⟩ : Fin n) := Fin.ext hcm'
      have hir : (⟨m, hmn⟩ : Fin n) < r := hci ▸ hcr
      rw [if_pos ⟨hir, hci ▸ le_rfl⟩]
      have hpiv : swapIdx ⟨m, hmn⟩ (findPivot (elimUpTo A B m).1 ⟨m, hmn⟩)
          (elimUpTo A B m).1 ⟨m, hmn⟩ ⟨m, hmn⟩ ≠ 0 := by
        have hU := Hdiag ⟨m, hmn⟩
        rw [forwardElim_row A B m hmn] at hU
        unfold swapIdx
        rw [if_pos rfl]
        exact hU
      rw [hci]
      rw [div_mul_cancel₀ _ hpiv, sub_self]

/-- Predicate: `x` solves the linear system `(M, v)` row by row. -/
def RowEq (M : Fin n → Fin n → ℚ) (v : Fin n → ℚ) (x : Fin n → ℚ) : Prop :=
  ∀ r, ∑ k, M r k * x k = v r

/-- Swapping two rows of the system does not change its solutions. -/
lemma rowEq_swap (M : Fin n → Fin n → ℚ) (v : Fin n → ℚ) (x : Fin n → ℚ) (i p : Fin n) :
    RowEq (swapIdx i p M) (swapIdx i p v) x ↔ RowEq M v x := by
  unfold RowEq
  constructor
  · intro h r
    have hr := h (Equiv.swap i p r)
    rw [swapIdx_eq_swap_apply, swapIdx_eq_swap_apply, Equiv.swap_apply_self] at hr
    exact hr
  · intro h r
    rw [swapIdx_eq_swap_apply, swapIdx_eq_swap_apply]
    exact h _

/-- One elimination step does not change the solutions of the system,
provided the (post-swap) pivot row is already zero left of the pivot. -/
lemma elimStep_rowEq (s : (Fin n → Fin n → ℚ) × (Fin n → ℚ)) (i : Fin n) (x : Fin n → ℚ)
    (hz : ∀ k : Fin n, k < i → swapIdx i (findPivot s.1 i) s.1 i k = 0) :
    RowEq (elimStep s i).1 (elimStep s i).2 x ↔ RowEq s.1 s.2 x := by
  set p := findPivot s.1 i with hp
  set M := swapIdx i p s.1 with hMdef
  set v := swapIdx i p s.2 with hvdef
  have hstep1 : (elimStep s i).1 =
      fun j k => if i < j ∧ i ≤ k then M j k - M j i / M i i * M i k else M j k := rfl
  have hstep2 : (elimStep s i).2 =
      fun j => if i < j then v j - M j i / M i i * v i else v j := rfl
  have keyrow : ∀ r : Fin n, ¬ i < r → (elimStep s i).1 r = M r ∧ (elimStep s i).2 r = v r := by
    intro r hr
    constructor
    · funext k; rw [hstep1]; exact if_neg (fun hc => hr hc.1)
    · rw [hstep2]; exact if_neg hr
  have key : ∀ r : Fin n, i < r → ∑ k, (elimStep s i).1 r k * x k
      = (∑ k, M r k * x k) - M r i / M i i * ∑ k, M i k * x k := by
    intro r hr
    rw [hstep1]
    have hterm : ∀ k : Fin n,
        (if i < r ∧ i ≤ k then M r k - M r i / M i i * M i k else M r k) * x k
          = M r k * x k - M r i / M i i * (M i k * x k) := by
      intro k
      by_cases hk : i ≤ k
      · rw [if_pos ⟨hr, hk⟩]; ring
      · rw [if_neg (fun hc => hk hc.2), hz k (lt_of_not_le hk)]; ring
    simp only [hterm]
    rw [Finset.sum_sub_distrib, ← Finset.mul_sum]
  have main : RowEq (elimStep s i).1 (elimStep s i).2 x ↔ RowEq M v x := by
    constructor
    · intro H r
      have hi : ∑ k, M i k * x k = v i := by
        have h0 := H i
        rw [(keyrow i (lt_irrefl i)).1, (keyrow i (lt_irrefl i)).2] at h0
        exact h0
      by_cases hr : i < r
      · have hH := H r
        rw [key r hr] at hH
        simp only [hstep2] at hH
        rw [if_pos hr, hi] at hH
        linarith
      · have hH := H r
        rw [(keyrow r hr).1, (keyrow r hr).2] at hH
        exact hH
    · intro H r
      by_cases hr : i < r
      · rw [key r hr]
        simp only [hstep2]
        rw [if_pos hr, H r, H i]
      · rw [(keyrow r hr).1, (keyrow r hr).2]
        exact H r
  exact main.trans (rowEq_swap s.1 s.2 x i p)

/-- Forward elimination preserves the solution set. -/
lemma elimUpTo_rowEq (A : Fin n → Fin n → ℚ) (B : Fin n → ℚ) (Hdiag : GaussOk A B) :
    ∀ m, m ≤ n → ∀ x, (RowEq (elimUpTo A B m).1 (elimUpTo A B m).2 x ↔ RowEq A B x) := by
  intro m
  induction m with
  | zero => intro _ x; exact Iff.rfl
  | succ m ih =>
    intro hm x
    have hmn : m < n := by omega
    rw [elimUpTo_succ A B m hmn]
    have hz : ∀ k : Fin n, k < (⟨m, hmn⟩ : Fin n) →
        swapIdx ⟨m, hmn⟩ (findPivot (elimUpTo A B m).1 ⟨m, hmn⟩) (elimUpTo A B m).1 ⟨m, hmn⟩ k
          = 0 := by
      intro k hk
      have hple := findPivot_ge (elimUpTo A B m).1 (⟨m, hmn⟩ : Fin n)
      unfold swapIdx
      rw [if_pos rfl]
      exact elimUpTo_zeros A B Hdiag m (le_of_lt hmn) _ k hk (lt_of_lt_of_le hk hple)
    exact (elimStep_rowEq (elimUpTo A B m) ⟨m, hmn⟩ x hz).trans (ih (by omega) x)

/-- Lemma: `backSubLoop` with `m` iterations left never changes `x[i]` for `i ≥ m`. -/
lemma backSubLoop_frozen (U : Fin n → Fin n → ℚ) (C : Fin n → ℚ) :
    ∀ (m : ℕ) (x : Fin n → ℚ) (i : Fin n), m ≤ i.1 → backSubLoop U C m x i = x i := by
  intro m
  induction m with
  | zero => intro x i _; rfl
  | succ m ih =>
    intro x i hmi
    simp only [backSubLoop]
    by_cases h : m < n
    · rw [dif_pos h, ih _ i (by omega)]
      exact Function.update_noteq (Fin.ne_of_val_ne (by show i.1 ≠ m; omega)) _ x
    · rw [dif_neg h]
      exact ih _ i (by omega)

/-- The result of `backSubLoop` satisfies the back-substitution fixed point
on all rows it has processed. -/
lemma backSubLoop_fix (U : Fin n → Fin n → ℚ) (C : Fin n → ℚ) :
    ∀ m, m ≤ n → ∀ (x : Fin n → ℚ) (i : Fin n), i.1 < m →
      backSubLoop U C m x i =
        (C i - ∑ j ∈ Finset.univ.filter (fun j => i < j),
            U i j * backSubLoop U C m x j) / U i i := by
  intro m
  induction m with
  | zero => intro _ x i hi; omega
  | succ m ih =>
    intro hm x i hi
    have hmn : m < n := by omega
    simp only [backSubLoop]
    rw [dif_pos hmn]
    rcases Nat.lt_or_ge i.1 m with him | him
    · exact ih (by omega) _ i him
    · have hieq : i = (⟨m, hmn⟩ : Fin n) := Fin.ext (by show i.1 = m; omega)
      subst hieq
      rw [backSubLoop_frozen U C m _ _ le_rfl, Function.update_same]
      congr 2
      apply Finset.sum_congr rfl
      intro j hj
      have hj' : (⟨m, hmn⟩ : Fin n) < j := (Finset.mem_filter.mp hj).2
      have hjm : m < j.1 := hj'
      rw [backSubLoop_frozen U C m _ j (le_of_lt hjm),
        Function.update_noteq (Fin.ne_of_val_ne (by show j.1 ≠ m; omega)) _ x]

/-- Correctness of `solveGaussian`: when every pivot is nonzero, the
returned vector exactly solves the input system. -/
theorem solveGaussian_correct (A : Fin n → Fin n → ℚ) (B : Fin n → ℚ) (hok : GaussOk A B) :
    ∀ r, ∑ k, A r k * solveGaussian A B k = B r := by
  have hrow : RowEq (forwardElim A B).1 (forwardElim A B).2 (solveGaussian A B) := by
    intro r
    have hfix : solveGaussian A B r =
        ((forwardElim A B).2 r - ∑ j ∈ Finset.univ.filter (fun j => r < j),
            (forwardElim A B).1 r j * solveGaussian A B j) / (forwardElim A B).1 r r :=
      backSubLoop_fix (forwardElim A B).1 (forwardElim A B).2 n le_rfl (fun _ => 0) r r.2
    have hsub : Finset.univ.filter (fun k => r < k) ⊆ Finset.univ.erase r := by
      intro k hk
      rcases Finset.mem_filter.mp hk with ⟨_, hk2⟩
      exact Finset.mem_erase.mpr ⟨ne_of_gt hk2, Finset.mem_univ k⟩
    have hzero : ∀ k ∈ Finset.univ.erase r,
        k ∉ Finset.univ.filter (fun k => r < k) →
          (forwardElim A B).1 r k * solveGaussian A B k = 0 := by
      intro k hk hknot
      have hkne : k ≠ r := (Finset.mem_erase.mp hk).1
      have hklt : k < r := by
        rcases lt_or_gt_of_ne hkne with h | h
        · exact h
        · exact absurd (Finset.mem_filter.mpr ⟨Finset.mem_univ k, h⟩) hknot
      have hz : (forwardElim A B).1 r k = 0 :=
        elimUpTo_zeros A B hok n le_rfl r k k.2 hklt
      rw [hz, zero_mul]
    have hsplit : ∑ k, (forwardElim A B).1 r k * solveGaussian A B k
        = (forwardElim A B).1 r r * solveGaussian A B r
          + ∑ k ∈ Finset.univ.filter (fun k => r < k),
              (forwardElim A B).1 r k * solveGaussian A B k := by
      rw [← Finset.add_sum_erase Finset.univ _ (Finset.mem_univ r)]
      congr 1
      exact (Finset.sum_subset hsub hzero).symm
    rw [hsplit, hfix, mul_comm, div_mul_cancel₀ _ (hok r), sub_add_cancel]
  exact (elimUpTo_rowEq A B hok n le_rfl (solveGaussian A B)).mp hrow

end Gauss


/-! ## The homography construction (`PerspectiveTransformer`) -/

/-- The row `[sx, sy, 1, 0, 0, 0, -dx*sx, -dx*sy]` that correspondence
`(s, d)` pushes onto `A` (the x-equation). -/
def matARowX (s d : Point) : Fin 8 → ℚ := fun c =>
  match c.1 with
  | 0 => s.x | 1 => s.y | 2 => 1 | 3 => 0 | 4 => 0 | 5 => 0
  | 6 => -d.x * s.x | _ => -d.x * s.y

/-- The row `[0, 0, 0, sx, sy, 1, -dy*sx, -dy*sy]` that correspondence
`(s, d)` pushes onto `A` (the y-equation). -/
def matARowY (s d : Point) : Fin 8 → ℚ := fun c =>
  match c.1 with
  | 0 => 0 | 1 => 0 | 2 => 0 | 3 => s.x | 4 => s.y | 5 => 1
  | 6 => -d.y * s.x | _ => -d.y * s.y

/-- The 8×8 system matrix built by `getHomographyMatrix`: the loop over the
four correspondences pushes rows `2i` and `2i+1`. -/
def matA (src dst : Fin 4 → Point) : Fin 8 → Fin 8 → ℚ := fun r =>
  match r.1 with
  | 0 => matARowX (src 0) (dst 0)
  | 1 => matARowY (src 0) (dst 0)
  | 2 => matARowX (src 1) (dst 1)
  | 3 => matARowY (src 1) (dst 1)
  | 4 => matARowX (src 2) (dst 2)
  | 5 => matARowY (src 2) (dst 2)
  | 6 => matARowX (src 3) (dst 3)
  | _ => matARowY (src 3) (dst 3)

/-- The right-hand side `B` built by `getHomographyMatrix`:
`[dx0, dy0, dx1, dy1, dx2, dy2, dx3, dy3]`. -/
def vecB (dst : Fin 4 → Point) : Fin 8 → ℚ := fun r =>
  match r.1 with
  | 0 => (dst 0).x | 1 => (dst 0).y | 2 => (dst 1).x | 3 => (dst 1).y
  | 4 => (dst 2).x | 5 => (dst 2).y | 6 => (dst 3).x | _ => (dst 3).y

/-- Function `getHomographyMatrix(src, dst)`: solve the 8×8 system, then push the
fixed `h33 = 1`. -/
def getHomographyMatrix (src dst : Fin 4 → Point) : List ℚ :=
  ((List.finRange 8).map (solveGaussian (matA src dst) (vecB dst))) ++ [1]

/-- Function `transform(x, y, matrix)`: apply a 9-coefficient matrix projectively. -/
def transform (x y : ℚ) (matrix : List ℚ) : Point :=
  let a := matrix.getD 0 0
  let b := matrix.getD 1 0
  let c := matrix.getD 2 0
  let d := matrix.getD 3 0
  let e := matrix.getD 4 0
  let f := matrix.getD 5 0
  let g := matrix.getD 6 0
  let h := matrix.getD 7 0
  let i := matrix.getD 8 0
  let w := g * x + h * y + i
  { x := (a * x + b * y + c) / w, y := (d * x + e * y + f) / w }

/-- The projective denominator `w = g*x + h*y + i` computed by `transform`. -/
def transformDenom (x y : ℚ) (matrix : List ℚ) : ℚ :=
  matrix.getD 6 0 * x + matrix.getD 7 0 * y + matrix.getD 8 0

/-- The `PerspectiveTransformer` class: its two fields are the two solved
coefficient lists. -/
structure PerspectiveTransformer where
  matrix : List ℚ
  inverseMatrix : List ℚ

/-- The constructor: `matrix = getHomographyMatrix(src, dst)`,
`inverseMatrix = getHomographyMatrix(dst, src)`. -/
def PerspectiveTransformer.ofQuads (src dst : Fin 4 → Point) : PerspectiveTransformer :=
  { matrix := getHomographyMatrix src dst
    inverseMatrix := getHomographyMatrix dst src }

/-- Method `toFlat(x, y)`: apply the forward matrix. -/
def PerspectiveTransformer.toFlat (t : PerspectiveTransformer) (x y : ℚ) : Point :=
  transform x y t.matrix

/-- Method `toDistorted(x, y)`: apply the inverse matrix. -/
def PerspectiveTransformer.toDistorted (t : PerspectiveTransformer) (x y : ℚ) : Point :=
  transform x y t.inverseMatrix

/-! ## Projective algebra used to settle the round-trip claim -/

/-- Homogeneous coordinates of a point. -/
def hv (p : Point) : Fin 3 → ℚ := ![p.x, p.y, 1]

/-- The 3×3 matrix whose columns are the three given vectors. -/
def colMat (c0 c1 c2 : Fin 3 → ℚ) : Matrix (Fin 3) (Fin 3) ℚ :=
  Matrix.of fun r j => ![c0, c1, c2] j r

/-- Twice the signed area of the triangle `p q r`; zero iff collinear. -/
def tripleDet (p q r : Point) : ℚ :=
  p.x * q.y - p.x * r.y - q.x * p.y + q.x * r.y + r.x * p.y - r.x * q.y

/-- Non-degeneracy of a quadrilateral as the spec states it: no three of
the four corners are collinear (and hence no two coincide). -/
def NoThreeCollinear (q : Fin 4 → Point) : Prop :=
  tripleDet (q 0) (q 1) (q 2) ≠ 0 ∧ tripleDet (q 0) (q 1) (q 3) ≠ 0 ∧
    tripleDet (q 0) (q 2) (q 3) ≠ 0 ∧ tripleDet (q 1) (q 2) (q 3) ≠ 0

/-- Read a 9-coefficient list as a 3×3 matrix, row-major, as `transform`
does. -/
def toMatrix (m : List ℚ) : Matrix (Fin 3) (Fin 3) ℚ :=
  Matrix.of fun r c => m.getD (3 * r.1 + c.1) 0

/-- Lemma: `transform` is the projective application of `toMatrix`. -/
lemma transform_eq_mulVec (x y : ℚ) (m : List ℚ) :
    transform x y m =
      { x := (toMatrix m).mulVec ![x, y, 1] 0 / (toMatrix m).mulVec ![x, y, 1] 2,
        y := (toMatrix m).mulVec ![x, y, 1] 1 / (toMatrix m).mulVec ![x, y, 1] 2 } := by
  unfold transform toMatrix
  ext <;> simp [Matrix.mulVec, Matrix.dotProduct, Fin.sum_univ_three]

/-- The denominator computed by `transform` is the third component of the
homogeneous image. -/
lemma transformDenom_eq_mulVec (x y : ℚ) (m : List ℚ) :
    transformDenom x y m = (toMatrix m).mulVec ![x, y, 1] 2 := by
  unfold transformDenom toMatrix
  simp [Matrix.mulVec, Matrix.dotProduct, Fin.sum_univ_three]

/-- Shorthand for the eight solved coefficients of `getHomographyMatrix`. -/
def hcoef (src dst : Fin 4 → Point) : Fin 8 → ℚ :=
  solveGaussian (matA src dst) (vecB dst)

lemma toMatrix_ghm_00 (src dst : Fin 4 → Point) :
    toMatrix (getHomographyMatrix src dst) 0 0 = hcoef src dst 0 := rfl

lemma toMatrix_ghm_01 (src dst : Fin 4 → Point) :
    toMatrix (getHomographyMatrix src dst) 0 1 = hcoef src dst 1 := rfl

lemma toMatrix_ghm_02 (src dst : Fin 4 → Point) :
    toMatrix (getHomographyMatrix src dst) 0 2 = hcoef src dst 2 := rfl

lemma toMatrix_ghm_10 (src dst : Fin 4 → Point) :
    toMatrix (getHomographyMatrix src dst) 1 0 = hcoef src dst 3 := rfl

lemma toMatrix_ghm_11 (src dst : Fin 4 → Point) :
    toMatrix (getHomographyMatrix src dst) 1 1 = hcoef src dst 4 := rfl

lemma toMatrix_ghm_12 (src dst : Fin 4 → Point) :
    toMatrix (getHomographyMatrix src dst) 1 2 = hcoef src dst 5 := rfl

lemma toMatrix_ghm_20 (src dst : Fin 4 → Point) :
    toMatrix (getHomographyMatrix src dst) 2 0 = hcoef src dst 6 := rfl

lemma toMatrix_ghm_21 (src dst : Fin 4 → Point) :
    toMatrix (getHomographyMatrix src dst) 2 1 = hcoef src dst 7 := rfl

lemma toMatrix_ghm_22 (src dst : Fin 4 → Point) :
    toMatrix (getHomographyMatrix src dst) 2 2 = 1 := rfl

/-- The projective denominator of `transform` at corner `i` of `src`. -/
def cornerDenom (src dst : Fin 4 → Point) (i : Fin 4) : ℚ :=
  transformDenom (src i).x (src i).y (getHomographyMatrix src dst)

lemma cornerDenom_eq (src dst : Fin 4 → Point) (i : Fin 4) :
    cornerDenom src dst i =
      hcoef src dst 6 * (src i).x + hcoef src dst 7 * (src i).y + 1 := rfl

/-- A matrix whose rows satisfy the two scalar homography equations of a
correspondence maps its source point to a scalar multiple of its
destination point in homogeneous coordinates. -/
lemma rowPair_mulVec (H : Matrix (Fin 3) (Fin 3) ℚ) (s d : Point)
    (hx : H 0 0 * s.x + H 0 1 * s.y + H 0 2
        = d.x * (H 2 0 * s.x + H 2 1 * s.y + H 2 2))
    (hy : H 1 0 * s.x + H 1 1 * s.y + H 1 2
        = d.y * (H 2 0 * s.x + H 2 1 * s.y + H 2 2)) :
    H.mulVec (hv s) = (H 2 0 * s.x + H 2 1 * s.y + H 2 2) • hv d := by
  funext r
  fin_cases r
  · simp [Matrix.mulVec, Matrix.dotProduct, Fin.sum_univ_three, hv]
    linear_combination hx
  · simp [Matrix.mulVec, Matrix.dotProduct, Fin.sum_univ_three, hv]
    linear_combination hy
  · simp [Matrix.mulVec, Matrix.dotProduct, Fin.sum_univ_three, hv]

/-- The x-row equation delivered by `solveGaussian` for correspondence `i`. -/
lemma solver_eq_x (src dst : Fin 4 → Point) (hok : GaussOk (matA src dst) (vecB dst))
    (i : Fin 4) :
    (src i).x * hcoef src dst 0 + (src i).y * hcoef src dst 1 + 1 * hcoef src dst 2
      + 0 * hcoef src dst 3 + 0 * hcoef src dst 4 + 0 * hcoef src dst 5
      + -(dst i).x * (src i).x * hcoef src dst 6
      + -(dst i).x * (src i).y * hcoef src dst 7 = (dst i).x := by
  fin_cases i
  · have h := solveGaussian_correct (matA src dst) (vecB dst) hok 0
    rw [Fin.sum_univ_eight] at h
    exact h
  · have h := solveGaussian_correct (matA src dst) (vecB dst) hok 2
    rw [Fin.sum_univ_eight] at h
    exact h
  · have h := solveGaussian_correct (matA src dst) (vecB dst) hok 4
    rw [Fin.sum_univ_eight] at h
    exact h
  · have h := solveGaussian_correct (matA src dst) (vecB dst) hok 6
    rw [Fin.sum_univ_eight] at h
    exact h

/-- The y-row equation delivered by `solveGaussian` for correspondence `i`. -/
lemma solver_eq_y (src dst : Fin 4 → Point) (hok : GaussOk (matA src dst) (vecB dst))
    (i : Fin 4) :
    0 * hcoef src dst 0 + 0 * hcoef src dst 1 + 0 * hcoef src dst 2
      + (src i).x * hcoef src dst 3 + (src i).y * hcoef src dst 4 + 1 * hcoef src dst 5
      + -(dst i).y * (src i).x * hcoef src dst 6
      + -(dst i).y * (src i).y * hcoef src dst 7 = (dst i).y := by
  fin_cases i
  · have h := solveGaussian_correct (matA src dst) (vecB dst) hok 1
    rw [Fin.sum_univ_eight] at h
    exact h
  · have h := solveGaussian_correct (matA src dst) (vecB dst) hok 3
    rw [Fin.sum_univ_eight] at h
    exact h
  · have h := solveGaussian_correct (matA src dst) (vecB dst) hok 5
    rw [Fin.sum_univ_eight] at h
    exact h
  · have h := solveGaussian_correct (matA src dst) (vecB dst) hok 7
    rw [Fin.sum_univ_eight] at h
    exact h

/-- The solved forward matrix maps each `src` corner onto the matching
`dst` corner in homogeneous coordinates, scaled by the corner denominator. -/
lemma mulVec_corner (src dst : Fin 4 → Point) (hok : GaussOk (matA src dst) (vecB dst))
    (i : Fin 4) :
    (toMatrix (getHomographyMatrix src dst)).mulVec (hv (src i)) =
      cornerDenom src dst i • hv (dst i) := by
  have hx : toMatrix (getHomographyMatrix src dst) 0 0 * (src i).x
      + toMatrix (getHomographyMatrix src dst) 0 1 * (src i).y
      + toMatrix (getHomographyMatrix src dst) 0 2
      = (dst i).x * (toMatrix (getHomographyMatrix src dst) 2 0 * (src i).x
        + toMatrix (getHomographyMatrix src dst) 2 1 * (src i).y
        + toMatrix (getHomographyMatrix src dst) 2 2) := by
    rw [toMatrix_ghm_00, toMatrix_ghm_01, toMatrix_ghm_02, toMatrix_ghm_20,
      toMatrix_ghm_21, toMatrix_ghm_22]
    linear_combination solver_eq_x src dst hok i
  have hy : toMatrix (getHomographyMatrix src dst) 1 0 * (src i).x
      + toMatrix (getHomographyMatrix src dst) 1 1 * (src i).y
      + toMatrix (getHomographyMatrix src dst) 1 2
      = (dst i).y * (toMatrix (getHomographyMatrix src dst) 2 0 * (src i).x
        + toMatrix (getHomographyMatrix src dst) 2 1 * (src i).y
        + toMatrix (getHomographyMatrix src dst) 2 2) := by
    rw [toMatrix_ghm_10, toMatrix_ghm_11, toMatrix_ghm_12, toMatrix_ghm_20,
      toMatrix_ghm_21, toMatrix_ghm_22]
    linear_combination solver_eq_y src dst hok i
  have hmain := rowPair_mulVec (toMatrix (getHomographyMatrix src dst)) (src i) (dst i) hx hy
  rw [hmain, cornerDenom_eq, toMatrix_ghm_20, toMatrix_ghm_21, toMatrix_ghm_22]

/-! ### Determinant utilities for the non-degeneracy argument -/

lemma hv_two (p : Point) : hv p 2 = 1 := rfl

lemma colMat_apply (c0 c1 c2 : Fin 3 → ℚ) (r j : Fin 3) :
    colMat c0 c1 c2 r j = ![c0, c1, c2] j r := rfl

lemma det_colMat_hv (p q r : Point) :
    (colMat (hv p) (hv q) (hv r)).det = tripleDet p q r := by
  rw [Matrix.det_fin_three]
  simp [colMat, hv, tripleDet, Matrix.vecHead, Matrix.vecTail]

lemma mul_colMat (H : Matrix (Fin 3) (Fin 3) ℚ) (c0 c1 c2 : Fin 3 → ℚ) :
    H * colMat c0 c1 c2 = colMat (H.mulVec c0) (H.mulVec c1) (H.mulVec c2) := by
  ext r j
  fin_cases j <;>
    simp [colMat, Matrix.mul_apply, Matrix.mulVec, Matrix.dotProduct]

lemma colMat_smul (a b c : ℚ) (c0 c1 c2 : Fin 3 → ℚ) :
    colMat (a • c0) (b • c1) (c • c2) = colMat c0 c1 c2 * Matrix.diagonal ![a, b, c] := by
  ext r j
  fin_cases j <;>
    simp [colMat, Matrix.mul_apply, Matrix.diagonal, Fin.sum_univ_three] <;>
    ring

lemma det_colMat_smul (a b c : ℚ) (c0 c1 c2 : Fin 3 → ℚ) :
    (colMat (a • c0) (b • c1) (c • c2)).det = a * b * c * (colMat c0 c1 c2).det := by
  rw [colMat_smul, Matrix.det_mul, Matrix.det_diagonal]
  simp [Fin.prod_univ_three]
  ring

lemma tripleDet_rotate (p q r : Point) : tripleDet r p q = tripleDet p q r := by
  unfold tripleDet; ring

lemma tripleDet_swap12 (p q r : Point) : tripleDet q p r = -tripleDet p q r := by
  unfold tripleDet; ring

lemma tripleDet_swap23 (p q r : Point) : tripleDet p r q = -tripleDet p q r := by
  unfold tripleDet; ring

lemma tripleDet_last_eq (p q : Point) : tripleDet p q q = 0 := by
  unfold tripleDet; ring

/-- Cramer decomposition: when `pa pb pc` are affinely independent, the
homogeneous vector of any fourth point is an explicit combination of
theirs. -/
lemma hv_decomp (pa pb pc pd : Point) (hD : tripleDet pa pb pc ≠ 0) :
    hv pd = (tripleDet pd pb pc / tripleDet pa pb pc) • hv pa
      + (tripleDet pa pd pc / tripleDet pa pb pc) • hv pb
      + (tripleDet pa pb pd / tripleDet pa pb pc) • hv pc := by
  funext r
  fin_cases r <;>
    simp only [hv, Matrix.cons_val_zero, Matrix.cons_val_one, Matrix.head_cons,
      Pi.add_apply, Pi.smul_apply, smul_eq_mul, Matrix.cons_val_two, Matrix.tail_cons] <;>
    field_simp <;>
    unfold tripleDet <;>
    ring

/-- A matrix that kills an affinely independent triple of homogeneous
points is zero. -/
lemma eq_zero_of_kills_triple (H : Matrix (Fin 3) (Fin 3) ℚ) (pa pb pc : Point)
    (hdet : tripleDet pa pb pc ≠ 0)
    (ha : H.mulVec (hv pa) = 0) (hb : H.mulVec (hv pb) = 0)
    (hc : H.mulVec (hv pc) = 0) : H = 0 := by
  have hP : H * colMat (hv pa) (hv pb) (hv pc) = 0 := by
    rw [mul_colMat, ha, hb, hc]
    ext r j
    fin_cases j <;> simp [colMat]
  have hdet2 : IsUnit (colMat (hv pa) (hv pb) (hv pc)).det := by
    rw [det_colMat_hv]
    exact isUnit_iff_ne_zero.mpr hdet
  calc H = H * (colMat (hv pa) (hv pb) (hv pc) * (colMat (hv pa) (hv pb) (hv pc))⁻¹) := by
        rw [Matrix.mul_nonsing_inv _ hdet2, Matrix.mul_one]
    _ = (H * colMat (hv pa) (hv pb) (hv pc)) * (colMat (hv pa) (hv pb) (hv pc))⁻¹ := by
        rw [Matrix.mul_assoc]
    _ = 0 := by rw [hP, Matrix.zero_mul]

/-- A matrix that kills one homogeneous point vector is singular. -/
lemma det_eq_zero_of_kills (H : Matrix (Fin 3) (Fin 3) ℚ) (p : Point)
    (h : H.mulVec (hv p) = 0) : H.det = 0 := by
  by_contra hdet
  have hunit : IsUnit H.det := isUnit_iff_ne_zero.mpr hdet
  have hz : hv p = 0 := by
    calc hv p = (1 : Matrix (Fin 3) (Fin 3) ℚ).mulVec (hv p) := by rw [Matrix.one_mulVec]
      _ = (H⁻¹ * H).mulVec (hv p) := by rw [Matrix.nonsing_inv_mul _ hunit]
      _ = H⁻¹.mulVec (H.mulVec (hv p)) := by rw [← Matrix.mulVec_mulVec]
      _ = 0 := by rw [h, Matrix.mulVec_zero]
  have h2 := congrFun hz 2
  simp [hv] at h2

/-- If a homography-like matrix (bottom-right entry `1`) kills two corners
of a non-degenerate quadrilateral while mapping the other two corners onto
a non-degenerate destination, we get a contradiction. -/
lemma no_double_kill (H : Matrix (Fin 3) (Fin 3) ℚ) (pa pb pc pd qe qc qd : Point)
    (wc wd : ℚ) (hH22 : H 2 2 = 1)
    (ha : H.mulVec (hv pa) = 0) (hb : H.mulVec (hv pb) = 0)
    (hc : H.mulVec (hv pc) = wc • hv qc) (hd : H.mulVec (hv pd) = wd • hv qd)
    (habc : tripleDet pa pb pc ≠ 0) (habd : tripleDet pa pb pd ≠ 0)
    (hq : tripleDet qe qc qd ≠ 0) : False := by
  have hdecomp := hv_decomp pa pb pc pd habc
  have hgamma : tripleDet pa pb pd / tripleDet pa pb pc ≠ 0 :=
    div_ne_zero habd habc
  have happ : H.mulVec (hv pd)
      = (tripleDet pa pb pd / tripleDet pa pb pc) • (wc • hv qc) := by
    rw [hdecomp, Matrix.mulVec_add, Matrix.mulVec_add, Matrix.mulVec_smul,
      Matrix.mulVec_smul, Matrix.mulVec_smul, ha, hb, hc]
    simp
  rw [hd] at happ
  have hwd : wd = tripleDet pa pb pd / tripleDet pa pb pc * wc := by
    have h2 := congrFun happ 2
    simp [hv, smul_smul] at h2
    exact h2
  by_cases hwc : wc = 0
  · have hc0 : H.mulVec (hv pc) = 0 := by rw [hc, hwc, zero_smul]
    have hH0 : H = 0 := eq_zero_of_kills_triple H pa pb pc habc ha hb hc0
    rw [hH0] at hH22
    simp at hH22
  · have hwd0 : wd ≠ 0 := by
      rw [hwd]
      exact mul_ne_zero hgamma hwc
    have hqq : hv qd = hv qc := by
      have hsm : wd • hv qd = wd • hv qc := by
        rw [happ, smul_smul, ← hwd]
      exact smul_right_injective _ hwd0 hsm
    have hpt : qd = qc := by
      have hx := congrFun hqq 0
      have hy := congrFun hqq 1
      simp [hv] at hx hy
      ext <;> assumption
    rw [hpt] at hq
    exact hq (tripleDet_last_eq qe qc)

/-- With both quadrilaterals non-degenerate, no corner denominator of a
solved homography matrix can vanish. -/
lemma corner_w_ne_zero (H : Matrix (Fin 3) (Fin 3) ℚ) (pa pb pc pd qa qb qc qd : Point)
    (wa wb wc wd : ℚ) (hH22 : H 2 2 = 1)
    (ha : H.mulVec (hv pa) = wa • hv qa) (hb : H.mulVec (hv pb) = wb • hv qb)
    (hc : H.mulVec (hv pc) = wc • hv qc) (hd : H.mulVec (hv pd) = wd • hv qd)
    (hpabc : tripleDet pa pb pc ≠ 0) (hpabd : tripleDet pa pb pd ≠ 0)
    (hpacd : tripleDet pa pc pd ≠ 0)
    (hqabc : tripleDet qa qb qc ≠ 0) (hqabd : tripleDet qa qb qd ≠ 0)
    (hqbcd : tripleDet qb qc qd ≠ 0) : wa ≠ 0 := by
  intro hwa
  have ha0 : H.mulVec (hv pa) = 0 := by rw [ha, hwa, zero_smul]
  have hdetH : H.det = 0 := det_eq_zero_of_kills H pa ha0
  have h1 : (H * colMat (hv pb) (hv pc) (hv pd)).det = 0 := by
    rw [Matrix.det_mul, hdetH, zero_mul]
  have h2 : H * colMat (hv pb) (hv pc) (hv pd)
      = colMat (wb • hv qb) (wc • hv qc) (wd • hv qd) := by
    rw [mul_colMat, hb, hc, hd]
  rw [h2, det_colMat_smul, det_colMat_hv] at h1
  have h3 : wb = 0 ∨ wc = 0 ∨ wd = 0 := by
    rcases mul_eq_zero.mp h1 with h4 | h4
    · rcases mul_eq_zero.mp h4 with h5 | h5
      · rcases mul_eq_zero.mp h5 with h6 | h6
        · exact Or.inl h6
        · exact Or.inr (Or.inl h6)
      · exact Or.inr (Or.inr h5)
    · exact absurd h4 hqbcd
  rcases h3 with h0 | h0 | h0
  · have hb0 : H.mulVec (hv pb) = 0 := by rw [hb, h0, zero_smul]
    exact no_double_kill H pa pb pc pd qb qc qd wc wd hH22 ha0 hb0 hc hd hpabc hpabd hqbcd
  · have hc0 : H.mulVec (hv pc) = 0 := by rw [hc, h0, zero_smul]
    apply no_double_kill H pa pc pb pd qa qb qd wb wd hH22 ha0 hc0 hb hd
    · rw [tripleDet_swap23]
      exact neg_ne_zero.mpr hpabc
    · exact hpacd
    · exact hqabd
  · have hd0 : H.mulVec (hv pd) = 0 := by rw [hd, h0, zero_smul]
    apply no_double_kill H pa pd pb pc qa qb qc wb wc hH22 ha0 hd0 hb hc
    · rw [tripleDet_swap23]
      exact neg_ne_zero.mpr hpabd
    · rw [tripleDet_swap23]
      exact neg_ne_zero.mpr hpacd
    · exact hqabc

lemma combo_eq_mulVec (c0 c1 c2 : Fin 3 → ℚ) (a b c : ℚ) :
    a • c0 + b • c1 + c • c2 = (colMat c0 c1 c2).mulVec ![a, b, c] := by
  funext r
  simp [colMat, Matrix.mulVec, Matrix.dotProduct, Fin.sum_univ_three]
  ring

/-- Linear independence of the columns of an invertible matrix. -/
lemma combo_eq_zero (c0 c1 c2 : Fin 3 → ℚ) (hdet : (colMat c0 c1 c2).det ≠ 0)
    (a b c : ℚ) (h : a • c0 + b • c1 + c • c2 = 0) : a = 0 ∧ b = 0 ∧ c = 0 := by
  have hunit : IsUnit (colMat c0 c1 c2).det := isUnit_iff_ne_zero.mpr hdet
  have h1 : (colMat c0 c1 c2).mulVec ![a, b, c] = 0 := by
    rw [← combo_eq_mulVec]
    exact h
  have hv0 : ![a, b, c] = (0 : Fin 3 → ℚ) := by
    calc ![a, b, c] = (1 : Matrix (Fin 3) (Fin 3) ℚ).mulVec ![a, b, c] := by
          rw [Matrix.one_mulVec]
      _ = ((colMat c0 c1 c2)⁻¹ * colMat c0 c1 c2).mulVec ![a, b, c] := by
          rw [Matrix.nonsing_inv_mul _ hunit]
      _ = (colMat c0 c1 c2)⁻¹.mulVec ((colMat c0 c1 c2).mulVec ![a, b, c]) := by
          rw [← Matrix.mulVec_mulVec]
      _ = 0 := by rw [h1, Matrix.mulVec_zero]
  refine ⟨?_, ?_, ?_⟩
  · have h2 := congrFun hv0 0
    simpa using h2
  · have h2 := congrFun hv0 1
    simpa using h2
  · have h2 := congrFun hv0 2
    simpa using h2

lemma colMat_smul_same (a : ℚ) (c0 c1 c2 : Fin 3 → ℚ) :
    colMat (a • c0) (a • c1) (a • c2) = a • colMat c0 c1 c2 := by
  ext r j
  fin_cases j <;> simp [colMat]

/-- For non-degenerate quadrilaterals the projective denominator of every
corner under the solved homography is nonzero. -/
lemma cornerDenom_ne_zero (src dst : Fin 4 → Point)
    (hs : NoThreeCollinear src) (hd : NoThreeCollinear dst)
    (hok : GaussOk (matA src dst) (vecB dst)) :
    ∀ i : Fin 4, cornerDenom src dst i ≠ 0 := by
  have mv := mulVec_corner src dst hok
  have h22 := toMatrix_ghm_22 src dst
  obtain ⟨hs1, hs2, hs3, hs4⟩ := hs
  obtain ⟨hd1, hd2, hd3, hd4⟩ := hd
  intro i
  fin_cases i
  · exact corner_w_ne_zero (toMatrix (getHomographyMatrix src dst))
      (src 0) (src 1) (src 2) (src 3) (dst 0) (dst 1) (dst 2) (dst 3)
      _ _ _ _ h22 (mv 0) (mv 1) (mv 2) (mv 3) hs1 hs2 hs3 hd1 hd2 hd4
  · refine corner_w_ne_zero (toMatrix (getHomographyMatrix src dst))
      (src 1) (src 0) (src 2) (src 3) (dst 1) (dst 0) (dst 2) (dst 3)
      _ _ _ _ h22 (mv 1) (mv 0) (mv 2) (mv 3) ?_ ?_ ?_ ?_ ?_ ?_
    · rw [tripleDet_swap12]; exact neg_ne_zero.mpr hs1
    · rw [tripleDet_swap12]; exact neg_ne_zero.mpr hs2
    · exact hs4
    · rw [tripleDet_swap12]; exact neg_ne_zero.mpr hd1
    · rw [tripleDet_swap12]; exact neg_ne_zero.mpr hd2
    · exact hd3
  · refine corner_w_ne_zero (toMatrix (getHomographyMatrix src dst))
      (src 2) (src 0) (src 1) (src 3) (dst 2) (dst 0) (dst 1) (dst 3)
      _ _ _ _ h22 (mv 2) (mv 0) (mv 1) (mv 3) ?_ ?_ ?_ ?_ ?_ ?_
    · rw [tripleDet_rotate]; exact hs1
    · rw [tripleDet_swap12]; exact neg_ne_zero.mpr hs3
    · rw [tripleDet_swap12]; exact neg_ne_zero.mpr hs4
    · rw [tripleDet_rotate]; exact hd1
    · rw [tripleDet_swap12]; exact neg_ne_zero.mpr hd3
    · exact hd2
  · refine corner_w_ne_zero (toMatrix (getHomographyMatrix src dst))
      (src 3) (src 0) (src 1) (src 2) (dst 3) (dst 0) (dst 1) (dst 2)
      _ _ _ _ h22 (mv 3) (mv 0) (mv 1) (mv 2) ?_ ?_ ?_ ?_ ?_ ?_
    · rw [tripleDet_rotate]; exact hs2
    · rw [tripleDet_rotate]; exact hs3
    · rw [tripleDet_rotate]; exact hs4
    · rw [tripleDet_rotate]; exact hd2
    · rw [tripleDet_rotate]; exact hd3
    · exact hd1

/-- The composite of the two solved matrices acts on each `src` corner as
multiplication by the product of corner denominators. -/
lemma composite_mulVec_corner (src dst : Fin 4 → Point)
    (hok1 : GaussOk (matA src dst) (vecB dst))
    (hok2 : GaussOk (matA dst src) (vecB src)) (i : Fin 4) :
    (toMatrix (getHomographyMatrix dst src) * toMatrix (getHomographyMatrix src dst)).mulVec
        (hv (src i))
      = (cornerDenom src dst i * cornerDenom dst src i) • hv (src i) := by
  rw [← Matrix.mulVec_mulVec, mulVec_corner src dst hok1 i, Matrix.mulVec_smul,
    mulVec_corner dst src hok2 i, smul_smul]

/-- For non-degenerate quadrilaterals, the composite of the two solved
matrices is the scalar matrix given by the corner-0 denominators. -/
lemma composite_eq_smul_one (src dst : Fin 4 → Point)
    (hs : NoThreeCollinear src)
    (hok1 : GaussOk (matA src dst) (vecB dst))
    (hok2 : GaussOk (matA dst src) (vecB src)) :
    toMatrix (getHomographyMatrix dst src) * toMatrix (getHomographyMatrix src dst)
      = (cornerDenom src dst 0 * cornerDenom dst src 0) • (1 : Matrix (Fin 3) (Fin 3) ℚ) := by
  have heig := composite_mulVec_corner src dst hok1 hok2
  obtain ⟨hs1, hs2, hs3, hs4⟩ := hs
  have hdecomp := hv_decomp (src 0) (src 1) (src 2) (src 3) hs1
  have h2 : (cornerDenom src dst 3 * cornerDenom dst src 3) • hv (src 3)
      = (tripleDet (src 3) (src 1) (src 2) / tripleDet (src 0) (src 1) (src 2))
          • ((cornerDenom src dst 0 * cornerDenom dst src 0) • hv (src 0))
        + (tripleDet (src 0) (src 3) (src 2) / tripleDet (src 0) (src 1) (src 2))
          • ((cornerDenom src dst 1 * cornerDenom dst src 1) • hv (src 1))
        + (tripleDet (src 0) (src 1) (src 3) / tripleDet (src 0) (src 1) (src 2))
          • ((cornerDenom src dst 2 * cornerDenom dst src 2) • hv (src 2)) := by
    rw [← heig 3]
    conv_lhs => rw [hdecomp]
    rw [Matrix.mulVec_add, Matrix.mulVec_add, Matrix.mulVec_smul, Matrix.mulVec_smul,
      Matrix.mulVec_smul, heig 0, heig 1, heig 2]
  have hzero :
      (tripleDet (src 3) (src 1) (src 2) / tripleDet (src 0) (src 1) (src 2)
          * (cornerDenom src dst 0 * cornerDenom dst src 0
            - cornerDenom src dst 3 * cornerDenom dst src 3)) • hv (src 0)
        + (tripleDet (src 0) (src 3) (src 2) / tripleDet (src 0) (src 1) (src 2)
          * (cornerDenom src dst 1 * cornerDenom dst src 1
            - cornerDenom src dst 3 * cornerDenom dst src 3)) • hv (src 1)
        + (tripleDet (src 0) (src 1) (src 3) / tripleDet (src 0) (src 1) (src 2)
          * (cornerDenom src dst 2 * cornerDenom dst src 2
            - cornerDenom src dst 3 * cornerDenom dst src 3)) • hv (src 2) = 0 := by
    funext r
    have h3 := congrFun h2 r
    have h4 := congrFun hdecomp r
    simp only [Pi.add_apply, Pi.smul_apply, smul_eq_mul, Pi.zero_apply] at h3 h4 ⊢
    linear_combination -h3 + (cornerDenom src dst 3 * cornerDenom dst src 3) * h4
  have hdet : (colMat (hv (src 0)) (hv (src 1)) (hv (src 2))).det ≠ 0 := by
    rw [det_colMat_hv]
    exact hs1
  obtain ⟨hA, hB, hC⟩ := combo_eq_zero _ _ _ hdet _ _ _ hzero
  have ha0 : tripleDet (src 3) (src 1) (src 2) / tripleDet (src 0) (src 1) (src 2) ≠ 0 := by
    apply div_ne_zero _ hs1
    rw [tripleDet_rotate]
    exact hs4
  have hb0 : tripleDet (src 0) (src 3) (src 2) / tripleDet (src 0) (src 1) (src 2) ≠ 0 := by
    apply div_ne_zero _ hs1
    rw [tripleDet_swap23]
    exact neg_ne_zero.mpr hs3
  have hc0 : tripleDet (src 0) (src 1) (src 3) / tripleDet (src 0) (src 1) (src 2) ≠ 0 := by
    exact div_ne_zero hs2 hs1
  have hl0 : cornerDenom src dst 0 * cornerDenom dst src 0
      = cornerDenom src dst 3 * cornerDenom dst src 3 :=
    sub_eq_zero.mp ((mul_eq_zero.mp hA).resolve_left ha0)
  have hl1 : cornerDenom src dst 1 * cornerDenom dst src 1
      = cornerDenom src dst 3 * cornerDenom dst src 3 :=
    sub_eq_zero.mp ((mul_eq_zero.mp hB).resolve_left hb0)
  have hl2 : cornerDenom src dst 2 * cornerDenom dst src 2
      = cornerDenom src dst 3 * cornerDenom dst src 3 :=
    sub_eq_zero.mp ((mul_eq_zero.mp hC).resolve_left hc0)
  have hMP : toMatrix (getHomographyMatrix dst src) * toMatrix (getHomographyMatrix src dst)
        * colMat (hv (src 0)) (hv (src 1)) (hv (src 2))
      = (cornerDenom src dst 0 * cornerDenom dst src 0)
          • colMat (hv (src 0)) (hv (src 1)) (hv (src 2)) := by
    rw [mul_colMat, heig 0, heig 1, heig 2, hl1, hl2, ← hl0, colMat_smul_same]
  have hunit : IsUnit (colMat (hv (src 0)) (hv (src 1)) (hv (src 2))).det :=
    isUnit_iff_ne_zero.mpr hdet
  calc toMatrix (getHomographyMatrix dst src) * toMatrix (getHomographyMatrix src dst)
      = toMatrix (getHomographyMatrix dst src) * toMatrix (getHomographyMatrix src dst)
        * (colMat (hv (src 0)) (hv (src 1)) (hv (src 2))
          * (colMat (hv (src 0)) (hv (src 1)) (hv (src 2)))⁻¹) := by
        rw [Matrix.mul_nonsing_inv _ hunit, Matrix.mul_one]
    _ = toMatrix (getHomographyMatrix dst src) * toMatrix (getHomographyMatrix src dst)
        * colMat (hv (src 0)) (hv (src 1)) (hv (src 2))
        * (colMat (hv (src 0)) (hv (src 1)) (hv (src 2)))⁻¹ := by
        simp only [Matrix.mul_assoc]
    _ = ((cornerDenom src dst 0 * cornerDenom dst src 0)
          • colMat (hv (src 0)) (hv (src 1)) (hv (src 2)))
        * (colMat (hv (src 0)) (hv (src 1)) (hv (src 2)))⁻¹ := by
        rw [hMP]
    _ = (cornerDenom src dst 0 * cornerDenom dst src 0)
        • (colMat (hv (src 0)) (hv (src 1)) (hv (src 2))
          * (colMat (hv (src 0)) (hv (src 1)) (hv (src 2)))⁻¹) := by
        rw [smul_mul_assoc]
    _ = (cornerDenom src dst 0 * cornerDenom dst src 0) • (1 : Matrix (Fin 3) (Fin 3) ℚ) := by
        rw [Matrix.mul_nonsing_inv _ hunit]

/-- Claim C1 main lemma: in exact arithmetic, `toDistorted` undoes `toFlat`
at every point with nonzero projective denominator, for non-degenerate
quadrilaterals whose two solves run without a zero pivot. -/
lemma roundTrip_aux (src dst : Fin 4 → Point)
    (hs : NoThreeCollinear src) (hd : NoThreeCollinear dst)
    (hok1 : GaussOk (matA src dst) (vecB dst))
    (hok2 : GaussOk (matA dst src) (vecB src))
    (p : Point)
    (hw : transformDenom p.x p.y (getHomographyMatrix src dst) ≠ 0) :
    transform (transform p.x p.y (getHomographyMatrix src dst)).x
      (transform p.x p.y (getHomographyMatrix src dst)).y
      (getHomographyMatrix dst src) = p := by
  have hmu : cornerDenom src dst 0 * cornerDenom dst src 0 ≠ 0 :=
    mul_ne_zero (cornerDenom_ne_zero src dst hs hd hok1 0)
      (cornerDenom_ne_zero dst src hd hs hok2 0)
  have hM := composite_eq_smul_one src dst hs hok1 hok2
  have hW : (toMatrix (getHomographyMatrix src dst)).mulVec ![p.x, p.y, 1] 2 ≠ 0 := by
    rw [← transformDenom_eq_mulVec]
    exact hw
  rw [transform_eq_mulVec p.x p.y (getHomographyMatrix src dst)]
  show transform
      ((toMatrix (getHomographyMatrix src dst)).mulVec ![p.x, p.y, 1] 0
        / (toMatrix (getHomographyMatrix src dst)).mulVec ![p.x, p.y, 1] 2)
      ((toMatrix (getHomographyMatrix src dst)).mulVec ![p.x, p.y, 1] 1
        / (toMatrix (getHomographyMatrix src dst)).mulVec ![p.x, p.y, 1] 2)
      (getHomographyMatrix dst src) = p
  have hvq : ![(toMatrix (getHomographyMatrix src dst)).mulVec ![p.x, p.y, 1] 0
        / (toMatrix (getHomographyMatrix src dst)).mulVec ![p.x, p.y, 1] 2,
      (toMatrix (getHomographyMatrix src dst)).mulVec ![p.x, p.y, 1] 1
        / (toMatrix (getHomographyMatrix src dst)).mulVec ![p.x, p.y, 1] 2, 1]
      = ((toMatrix (getHomographyMatrix src dst)).mulVec ![p.x, p.y, 1] 2)⁻¹
        • (toMatrix (getHomographyMatrix src dst)).mulVec ![p.x, p.y, 1] := by
    funext r
    fin_cases r
    · show (toMatrix (getHomographyMatrix src dst)).mulVec ![p.x, p.y, 1] 0
          / (toMatrix (getHomographyMatrix src dst)).mulVec ![p.x, p.y, 1] 2
        = ((toMatrix (getHomographyMatrix src dst)).mulVec ![p.x, p.y, 1] 2)⁻¹
          * (toMatrix (getHomographyMatrix src dst)).mulVec ![p.x, p.y, 1] 0
      rw [div_eq_inv_mul]
    · show (toMatrix (getHomographyMatrix src dst)).mulVec ![p.x, p.y, 1] 1
          / (toMatrix (getHomographyMatrix src dst)).mulVec ![p.x, p.y, 1] 2
        = ((toMatrix (getHomographyMatrix src dst)).mulVec ![p.x, p.y, 1] 2)⁻¹
          * (toMatrix (getHomographyMatrix src dst)).mulVec ![p.x, p.y, 1] 1
      rw [div_eq_inv_mul]
    · show (1 : ℚ)
        = ((toMatrix (getHomographyMatrix src dst)).mulVec ![p.x, p.y, 1] 2)⁻¹
          * (toMatrix (getHomographyMatrix src dst)).mulVec ![p.x, p.y, 1] 2
      rw [inv_mul_cancel₀ hW]
  have hfinal : (toMatrix (getHomographyMatrix dst src)).mulVec
        ![(toMatrix (getHomographyMatrix src dst)).mulVec ![p.x, p.y, 1] 0
            / (toMatrix (getHomographyMatrix src dst)).mulVec ![p.x, p.y, 1] 2,
          (toMatrix (getHomographyMatrix src dst)).mulVec ![p.x, p.y, 1] 1
            / (toMatrix (getHomographyMatrix src dst)).mulVec ![p.x, p.y, 1] 2, 1]
      = (((toMatrix (getHomographyMatrix src dst)).mulVec ![p.x, p.y, 1] 2)⁻¹
          * (cornerDenom src dst 0 * cornerDenom dst src 0)) • ![p.x, p.y, 1] := by
    rw [hvq, Matrix.mulVec_smul, Matrix.mulVec_mulVec, hM, Matrix.smul_mulVec_assoc,
      Matrix.one_mulVec, smul_smul]
  have hscale : ((toMatrix (getHomographyMatrix src dst)).mulVec ![p.x, p.y, 1] 2)⁻¹
      * (cornerDenom src dst 0 * cornerDenom dst src 0) ≠ 0 :=
    mul_ne_zero (inv_ne_zero hW) hmu
  rw [transform_eq_mulVec, hfinal]
  ext
  · show ((((toMatrix (getHomographyMatrix src dst)).mulVec ![p.x, p.y, 1] 2)⁻¹
        * (cornerDenom src dst 0 * cornerDenom dst src 0)) • ![p.x, p.y, 1]) 0
      / ((((toMatrix (getHomographyMatrix src dst)).mulVec ![p.x, p.y, 1] 2)⁻¹
        * (cornerDenom src dst 0 * cornerDenom dst src 0)) • ![p.x, p.y, 1]) 2 = p.x
    simp only [Pi.smul_apply, smul_eq_mul, Matrix.cons_val_zero]
    rw [show (![p.x, p.y, 1] : Fin 3 → ℚ) 2 = 1 from rfl, mul_one]
    exact mul_div_cancel_left₀ p.x hscale
  · show ((((toMatrix (getHomographyMatrix src dst)).mulVec ![p.x, p.y, 1] 2)⁻¹
        * (cornerDenom src dst 0 * cornerDenom dst src 0)) • ![p.x, p.y, 1]) 1
      / ((((toMatrix (getHomographyMatrix src dst)).mulVec ![p.x, p.y, 1] 2)⁻¹
        * (cornerDenom src dst 0 * cornerDenom dst src 0)) • ![p.x, p.y, 1]) 2 = p.y
    simp only [Pi.smul_apply, smul_eq_mul, Matrix.cons_val_one, Matrix.head_cons]
    rw [show (![p.x, p.y, 1] : Fin 3 → ℚ) 2 = 1 from rfl, mul_one]
    exact mul_div_cancel_left₀ p.y hscale

instance (q : Fin 4 → Point) : Decidable (NoThreeCollinear q) := by
  unfold NoThreeCollinear; infer_instance

/-- Claim C1: for every non-degenerate source and destination quadrilateral
(no three corners collinear, and both Gaussian solves of the constructor
run with nonzero pivots) and every point `p` whose projective denominator
is nonzero, composing the two public transforms of `PerspectiveTransformer`
gives back the original point: `toDistorted` applied to the result of
`toFlat(p.x, p.y)` equals `p` exactly, under the exact rational arithmetic
of this embedding. -/
theorem C1_homography_round_trip (src dst : Fin 4 → Point)
    (hs : NoThreeCollinear src) (hd : NoThreeCollinear dst)
    (hok1 : GaussOk (matA src dst) (vecB dst))
    (hok2 : GaussOk (matA dst src) (vecB src))
    (p : Point)
    (hw : transformDenom p.x p.y (PerspectiveTransformer.ofQuads src dst).matrix ≠ 0) :
    (PerspectiveTransformer.ofQuads src dst).toDistorted
        ((PerspectiveTransformer.ofQuads src dst).toFlat p.x p.y).x
        ((PerspectiveTransformer.ofQuads src dst).toFlat p.x p.y).y = p :=
  roundTrip_aux src dst hs hd hok1 hok2 p hw

/-- A concrete distorted quadrilateral (the unit square). -/
def wSrc : Fin 4 → Point := ![⟨0, 0⟩, ⟨1, 0⟩, ⟨1, 1⟩, ⟨0, 1⟩]

/-- A concrete flat quadrilateral (a genuinely projective image of `wSrc`). -/
def wDst : Fin 4 → Point := ![⟨0, 0⟩, ⟨2, 0⟩, ⟨3, 2⟩, ⟨0, 1⟩]

set_option maxRecDepth 40000 in
set_option maxHeartbeats 4000000 in
attribute [local semireducible] Rat.add Rat.mul Rat.inv Rat.sub in
/-- Witness for C1: both quadrilaterals are non-degenerate, both solves
pivot safely, the denominator at `(1/3, 1/2)` is nonzero, and the round
trip returns the point. -/
theorem C1_homography_round_trip_witness :
    (PerspectiveTransformer.ofQuads wSrc wDst).toDistorted
        ((PerspectiveTransformer.ofQuads wSrc wDst).toFlat (1/3) (1/2)).x
        ((PerspectiveTransformer.ofQuads wSrc wDst).toFlat (1/3) (1/2)).y
      = { x := 1/3, y := 1/2 } :=
  C1_homography_round_trip wSrc wDst (by decide) (by decide) (by decide) (by decide)
    { x := 1/3, y := 1/2 } (by decide)

/-- A degenerate source quadrilateral: all four corners coincide. -/
def degSrc : Fin 4 → Point := ![⟨0, 0⟩, ⟨0, 0⟩, ⟨0, 0⟩, ⟨0, 0⟩]

/-- A well-formed destination quadrilateral for the degenerate test. -/
def degDst : Fin 4 → Point := ![⟨0, 0⟩, ⟨1, 0⟩, ⟨1, 1⟩, ⟨0, 1⟩]

set_option maxRecDepth 40000 in
set_option maxHeartbeats 4000000 in
attribute [local semireducible] Rat.add Rat.mul Rat.inv Rat.sub in
/-- Claim C3 (code-bug record): on the degenerate quadrilateral `degSrc` the
elimination pivot is exactly `0` (in JavaScript the code then divides by
zero, producing `NaN`/`Infinity`), yet the constructor still returns a
9-entry coefficient list and raises no error of any kind; likewise
`transform` divides by `w = 0` silently and returns a point instead of
reporting an error. -/
theorem C3_degenerate_silent :
    (forwardElim (matA degSrc degDst) (vecB degDst)).1 0 0 = 0 ∧
    (PerspectiveTransformer.ofQuads degSrc degDst).matrix = [0, 0, 1, 0, 0, 1, 0, 0, 1] ∧
    transform 5 7 [1, 0, 0, 0, 1, 0, 0, 0, 0] = { x := 0, y := 0 } := by
  refine ⟨by decide, by decide, by decide⟩

/-! ## `LayoutEngine` (`layoutEngine.ts`) -/

namespace LayoutEngine

/-- Function `calculatePixelsPerInch`: the source returns the silent `0` fallback
when `referenceInches === 0`, otherwise the ratio. -/
def calculatePixelsPerInch (referencePixels referenceInches : ℚ) : ℚ :=
  if referenceInches = 0 then 0 else referencePixels / referenceInches

/-- Function `inchesToPixels(inches, ppi)` = inches * ppi`. -/
def inchesToPixels (inches ppi : ℚ) : ℚ := inches * ppi

/-- Function `pixelsToInches(pixels, ppi)`: `0` when `ppi === 0`, else the ratio. -/
def pixelsToInches (pixels ppi : ℚ) : ℚ :=
  if ppi = 0 then 0 else pixels / ppi

/-- The `items.map` loop of `autoArrangeUniform` with its running
`currentX`. -/
def uniformLoop (gapPixels : ℚ) : List ArtPiece → ℚ → List ArtPiece
  | [], _ => []
  | item :: rest, currentX =>
    { item with x := currentX }
      :: uniformLoop gapPixels rest (currentX + item.width + gapPixels)

/-- Function `autoArrangeUniform(items, startingX, gapInches, ppi)`. -/
def autoArrangeUniform (items : List ArtPiece) (startingX gapInches ppi : ℚ) :
    List ArtPiece :=
  uniformLoop (gapInches * ppi) items startingX

/-- Row-1 loop of the balanced grid: place left-to-right at `startY`,
advancing `r1X` and tracking `maxRow1Height`; returns the placed row and
the final maximum height. -/
def gridRow1 (startY gap : ℚ) : List ArtPiece → ℚ → ℚ → List ArtPiece × ℚ
  | [], _, maxH => ([], maxH)
  | item :: rest, r1X, maxH =>
    let res := gridRow1 startY gap rest (r1X + item.width + gap)
      (if maxH < item.height then item.height else maxH)
    ({ item with x := r1X, y := startY } :: res.1, res.2)

/-- Left-to-right placement at a fixed `y`, advancing by
`item.width + gap` (row 2 of the grid, grid variant 1, and the `row`
template loop, which have identical bodies in the source). -/
def placeRowAt (rowY gap : ℚ) : List ArtPiece → ℚ → List ArtPiece
  | [], _ => []
  | item :: rest, curX =>
    { item with x := curX, y := rowY }
      :: placeRowAt rowY gap rest (curX + item.width + gap)

/-- Vertical stack at a fixed `x`, advancing by `item.height + gap`
(grid variant 2 and the `big-left`/`big-right` stacks). -/
def placeColumnAt (colX gap : ℚ) : List ArtPiece → ℚ → List ArtPiece
  | [], _ => []
  | item :: rest, curY =>
    { item with x := colX, y := curY }
      :: placeColumnAt colX gap rest (curY + item.height + gap)

/-- Function `arrangeGrid(items, startX, startY, gapInches, ppi, variant)`. -/
def arrangeGrid (items : List ArtPiece) (startX startY gapInches ppi : ℚ)
    (variant : ℕ) : List ArtPiece :=
  let gap := gapInches * ppi
  let count := items.length
  if variant % 3 = 0 then
    let firstRowCount := (count + 1) / 2
    let row1 := items.take firstRowCount
    let row2 := items.drop firstRowCount
    let r1 := gridRow1 startY gap row1 startX 0
    r1.1 ++ placeRowAt (startY + r1.2 + gap) gap row2 startX
  else if variant % 3 = 1 then
    placeRowAt startY gap items startX
  else
    placeColumnAt startX gap items startY

/-- The sort `[...items].sort((a, b) => (b.width*b.height) - (a.width*a.height))`:
stable sort, descending by area. -/
def sortByAreaDesc (items : List ArtPiece) : List ArtPiece :=
  items.mergeSort (fun a b => b.width * b.height ≤ a.width * a.height)

/-- The `others.forEach` loop of the quadrant mosaic (`switch (i % 4)`). -/
def quadrantLoop (centerX centerY mainRight mainLeft mainTop mainBottom : ℚ) :
    List ArtPiece → ℕ → List ArtPiece
  | [], _ => []
  | item :: rest, i =>
    (match i % 4 with
      | 0 => { item with x := mainRight, y := centerY - item.height / 2 }
      | 1 => { item with x := mainLeft - item.width, y := centerY - item.height / 2 }
      | 2 => { item with x := centerX - item.width / 2, y := mainTop - item.height }
      | _ => { item with x := centerX - item.width / 2, y := mainBottom })
      :: quadrantLoop centerX centerY mainRight mainLeft mainTop mainBottom rest (i + 1)

/-- The alternating left/right loop of the pyramid mosaic (variant 1). -/
def pyramidLoop (centerX topY gap : ℚ) : List ArtPiece → ℕ → List ArtPiece
  | [], _ => []
  | item :: rest, i =>
    (if i % 2 = 0 then
        { item with x := centerX - item.width - gap, y := topY - item.height }
      else { item with x := centerX + gap, y := topY - item.height })
      :: pyramidLoop centerX topY gap rest (i + 1)

/-- The stairs loop of the mosaic (variant 2): `curX += width * 0.8`,
`curY += height * 0.5`. -/
def stairsLoop : List ArtPiece → ℚ → ℚ → List ArtPiece
  | [], _, _ => []
  | item :: rest, curX, curY =>
    { item with x := curX, y := curY }
      :: stairsLoop rest (curX + item.width * (4 / 5)) (curY + item.height * (1 / 2))

/-- Function `arrangeMosaic(items, centerX, centerY, gapInches, ppi, variant)`. -/
def arrangeMosaic (items : List ArtPiece) (centerX centerY gapInches ppi : ℚ)
    (variant : ℕ) : List ArtPiece :=
  if items.length = 0 then items
  else
    let gap := gapInches * ppi
    let sorted := sortByAreaDesc items
    if variant % 3 = 0 then
      match sorted with
      | [] => []
      | main :: others =>
        { main with x := centerX - main.width / 2, y := centerY - main.height / 2 }
          :: quadrantLoop centerX centerY
              (centerX + main.width / 2 + gap) (centerX - main.width / 2 - gap)
              (centerY - main.height / 2 - gap) (centerY + main.height / 2 + gap)
              others 0
    else if variant % 3 = 1 then
      match sorted with
      | [] => []
      | main :: others =>
        { main with x := centerX - main.width / 2, y := centerY }
          :: pyramidLoop centerX (centerY - gap) gap others 0
    else
      stairsLoop items (centerX - (items.length : ℚ) * 100)
        (centerY - (items.length : ℚ) * 50)

/-- The `config` object of `applyTemplate`. -/
structure TemplateConfig where
  startX : ℚ
  startY : ℚ
  gapInches : ℚ
  ppi : ℚ
  wallWidth : Option ℚ

/-- The alternating left/right loop of `big-center`, with its two running
y-coordinates. -/
def bigCenterLoop (leftX rightX gap : ℚ) : List ArtPiece → ℚ → ℚ → ℕ → List ArtPiece
  | [], _, _, _ => []
  | item :: rest, lY, rY, i =>
    if i % 2 = 0 then
      { item with x := leftX - item.width, y := lY }
        :: bigCenterLoop leftX rightX gap rest (lY + item.height + gap) rY (i + 1)
    else
      { item with x := rightX, y := rY }
        :: bigCenterLoop leftX rightX gap rest lY (rY + item.height + gap) (i + 1)

/-- The `stairs` template loop: `cx += width + gap`, `cy += height / 2`. -/
def stairsTemplateLoop (gap : ℚ) : List ArtPiece → ℚ → ℚ → List ArtPiece
  | [], _, _ => []
  | item :: rest, cx, cy =>
    { item with x := cx, y := cy }
      :: stairsTemplateLoop gap rest (cx + item.width + gap) (cy + item.height / 2)

/-- Function `applyTemplate(items, templateName, config)`: the `switch` over the
template name; an unknown name returns the input (`default: return items`).
(`config.wallWidth ? config.wallWidth / 2 : startX` is JavaScript
truthiness: absent or `0` falls back to `startX`.) -/
def applyTemplate (items : List ArtPiece) (templateName : String)
    (config : TemplateConfig) : List ArtPiece :=
  let gap := config.gapInches * config.ppi
  let sorted := sortByAreaDesc items
  if templateName = "row" then
    let totalWidth := (items.map (fun item => item.width)).sum
      + ((items.length : ℚ) - 1) * gap
    placeRowAt config.startY gap items
      ((match config.wallWidth with
        | some w => if w = 0 then config.startX else w / 2
        | none => config.startX) - totalWidth / 2)
  else if templateName = "grid" then
    arrangeGrid items config.startX config.startY config.gapInches config.ppi 0
  else if templateName = "big-left" then
    match sorted with
    | [] => []
    | main :: others =>
      { main with x := config.startX, y := config.startY }
        :: placeColumnAt (config.startX + main.width + gap) gap others config.startY
  else if templateName = "big-right" then
    match sorted with
    | [] => []
    | main :: others =>
      let stackWidth := others.foldl (fun mx item => max mx item.width) 0
      placeColumnAt config.startX gap others config.startY
        ++ [{ main with x := config.startX + stackWidth + gap, y := config.startY }]
  else if templateName = "big-center" then
    match sorted with
    | [] => []
    | main :: others =>
      { main with x := config.startX - main.width / 2, y := config.startY }
        :: bigCenterLoop (config.startX - main.width / 2 - gap)
            (config.startX + main.width / 2 + gap) gap others
            config.startY config.startY 0
  else if templateName = "stairs" then
    stairsTemplateLoop gap items config.startX config.startY
  else
    items

end LayoutEngine

/-- Function `getCenterLineY` of the page component: the effective floor is
`floorY * scale` when a floor reference was set (`floorY > 0`), else the
canvas height, and the distance from the floor is the hardwired constant
`60` inches (`pixelsFromFloor = inchesToPixels(60, activePPI)`). -/
def getCenterLineY (floorY scale activePPI canvasHeight : ℚ) : ℚ :=
  (if floorY > 0 then floorY * scale else canvasHeight)
    - LayoutEngine.inchesToPixels 60 activePPI

/-- The `minY` accumulator of `handleSuggestSpot`. -/
def minYAux : List ArtPiece → ℚ → ℚ
  | [], m => m
  | p :: rest, m => minYAux rest (if p.y < m then p.y else m)

/-- The `maxY` accumulator of `handleSuggestSpot`. -/
def maxYAux : List ArtPiece → ℚ → ℚ
  | [], m => m
  | p :: rest, m => maxYAux rest (if p.y + p.height > m then p.y + p.height else m)

/-- The `currentMinX` accumulator of `handleSuggestSpot`. -/
def minXAux : List ArtPiece → ℚ → ℚ
  | [], m => m
  | p :: rest, m => minXAux rest (if p.x < m then p.x else m)

/-- The `currentMaxX` accumulator of `handleSuggestSpot`. -/
def maxXAux : List ArtPiece → ℚ → ℚ
  | [], m => m
  | p :: rest, m => maxXAux rest (if p.x + p.width > m then p.x + p.width else m)

/-- The placement core of `handleSuggestSpot`: measure the group bounding
box of the placed pieces, then translate every piece by the same
`(dx, dy)` taking the group centre to the hang point `(hx, hy)` (the value
returned by `LayoutEngine.calculateAIHangPoint` for the detected anchor).
An empty piece list is the early return of the source. -/
def suggestSpotPlace (pieces : List ArtPiece) (hx hy : ℚ) : List ArtPiece :=
  match pieces with
  | [] => pieces
  | p0 :: rest =>
    let minY := minYAux rest p0.y
    let maxY := maxYAux rest (p0.y + p0.height)
    let minX := minXAux rest p0.x
    let maxX := maxXAux rest (p0.x + p0.width)
    let dx := hx - (minX + maxX) / 2
    let dy := hy - (minY + maxY) / 2
    pieces.map (fun p => { p with x := p.x + dx, y := p.y + dy })

/-! ## Lemmas about the layout loops -/

/-- Every output element keeps the identity and shape fields of some input
element (the layout operations only rewrite `x` and `y`). -/
def FieldsPreserved (inp out : List ArtPiece) : Prop :=
  ∀ o ∈ out, ∃ it ∈ inp,
    o.id = it.id ∧ o.url = it.url ∧ o.width = it.width ∧ o.height = it.height

lemma fieldsPreserved_nil (inp : List ArtPiece) : FieldsPreserved inp [] := by
  intro o ho
  cases ho

lemma fieldsPreserved_append {inp out1 out2 : List ArtPiece}
    (h1 : FieldsPreserved inp out1) (h2 : FieldsPreserved inp out2) :
    FieldsPreserved inp (out1 ++ out2) := by
  intro o ho
  rcases List.mem_append.mp ho with h | h
  · exact h1 o h
  · exact h2 o h

lemma fieldsPreserved_mono {inp inp' out : List ArtPiece}
    (h : FieldsPreserved inp out) (hsub : ∀ it ∈ inp, it ∈ inp') :
    FieldsPreserved inp' out := by
  intro o ho
  obtain ⟨it, hit, hf⟩ := h o ho
  exact ⟨it, hsub it hit, hf⟩

lemma fieldsPreserved_refl (inp : List ArtPiece) : FieldsPreserved inp inp := by
  intro o ho
  exact ⟨o, ho, rfl, rfl, rfl, rfl⟩

namespace LayoutEngine

lemma uniformLoop_map_id (g : ℚ) (l : List ArtPiece) : ∀ x : ℚ,
    (uniformLoop g l x).map (fun it => it.id) = l.map (fun it => it.id) := by
  induction l with
  | nil => intro x; rfl
  | cons it rest ih => intro x; simp [uniformLoop, ih]

lemma uniformLoop_fields (g : ℚ) (l : List ArtPiece) : ∀ x : ℚ,
    FieldsPreserved l (uniformLoop g l x) := by
  induction l with
  | nil => intro x; exact fieldsPreserved_nil _
  | cons it rest ih =>
    intro x o ho
    rw [uniformLoop] at ho
    rcases List.mem_cons.mp ho with h | h
    · exact ⟨it, List.mem_cons_self it rest, by rw [h]; exact ⟨rfl, rfl, rfl, rfl⟩⟩
    · obtain ⟨it2, hit2, hf⟩ := ih (x + it.width + g) o h
      exact ⟨it2, List.mem_cons_of_mem it hit2, hf⟩

lemma gridRow1_map_id (sY g : ℚ) (l : List ArtPiece) : ∀ rX mH : ℚ,
    (gridRow1 sY g l rX mH).1.map (fun it => it.id) = l.map (fun it => it.id) := by
  induction l with
  | nil => intro rX mH; rfl
  | cons it rest ih => intro rX mH; simp [gridRow1, ih]

lemma gridRow1_fields (sY g : ℚ) (l : List ArtPiece) : ∀ rX mH : ℚ,
    FieldsPreserved l (gridRow1 sY g l rX mH).1 := by
  induction l with
  | nil => intro rX mH; exact fieldsPreserved_nil _
  | cons it rest ih =>
    intro rX mH o ho
    rw [gridRow1] at ho
    rcases List.mem_cons.mp ho with h | h
    · exact ⟨it, List.mem_cons_self it rest, by rw [h]; exact ⟨rfl, rfl, rfl, rfl⟩⟩
    · obtain ⟨it2, hit2, hf⟩ := ih (rX + it.width + g) _ o h
      exact ⟨it2, List.mem_cons_of_mem it hit2, hf⟩

lemma gridRow1_length (sY g : ℚ) (l : List ArtPiece) : ∀ rX mH : ℚ,
    (gridRow1 sY g l rX mH).1.length = l.length := by
  induction l with
  | nil => intro rX mH; rfl
  | cons it rest ih => intro rX mH; simp [gridRow1, ih]

lemma gridRow1_y (sY g : ℚ) (l : List ArtPiece) : ∀ rX mH : ℚ,
    ∀ o ∈ (gridRow1 sY g l rX mH).1, o.y = sY := by
  induction l with
  | nil => intro rX mH o ho; cases ho
  | cons it rest ih =>
    intro rX mH o ho
    rw [gridRow1] at ho
    rcases List.mem_cons.mp ho with h | h
    · rw [h]
    · exact ih (rX + it.width + g) _ o h

lemma gridRow1_snd_ge (sY g : ℚ) (l : List ArtPiece) : ∀ rX mH : ℚ,
    mH ≤ (gridRow1 sY g l rX mH).2 := by
  induction l with
  | nil => intro rX mH; exact le_rfl
  | cons it rest ih =>
    intro rX mH
    rw [gridRow1]
    refine le_trans ?_ (ih (rX + it.width + g) _)
    by_cases h : mH < it.height
    · rw [if_pos h]; exact le_of_lt h
    · rw [if_neg h]

lemma gridRow1_height_le (sY g : ℚ) (l : List ArtPiece) : ∀ rX mH : ℚ,
    ∀ o ∈ (gridRow1 sY g l rX mH).1, o.height ≤ (gridRow1 sY g l rX mH).2 := by
  induction l with
  | nil => intro rX mH o ho; cases ho
  | cons it rest ih =>
    intro rX mH o ho
    rw [gridRow1] at ho ⊢
    rcases List.mem_cons.mp ho with h | h
    · rw [h]
      show it.height ≤ (gridRow1 sY g rest (rX + it.width + g)
        (if mH < it.height then it.height else mH)).2
      refine le_trans ?_ (gridRow1_snd_ge sY g rest _ _)
      by_cases hc : mH < it.height
      · rw [if_pos hc]
      · rw [if_neg hc]; exact le_of_not_lt hc
    · exact ih (rX + it.width + g) _ o h

lemma placeRowAt_map_id (rY g : ℚ) (l : List ArtPiece) : ∀ cX : ℚ,
    (placeRowAt rY g l cX).map (fun it => it.id) = l.map (fun it => it.id) := by
  induction l with
  | nil => intro cX; rfl
  | cons it rest ih => intro cX; simp [placeRowAt, ih]

lemma placeRowAt_fields (rY g : ℚ) (l : List ArtPiece) : ∀ cX : ℚ,
    FieldsPreserved l (placeRowAt rY g l cX) := by
  induction l with
  | nil => intro cX; exact fieldsPreserved_nil _
  | cons it rest ih =>
    intro cX o ho
    rw [placeRowAt] at ho
    rcases List.mem_cons.mp ho with h | h
    · exact ⟨it, List.mem_cons_self it rest, by rw [h]; exact ⟨rfl, rfl, rfl, rfl⟩⟩
    · obtain ⟨it2, hit2, hf⟩ := ih (cX + it.width + g) o h
      exact ⟨it2, List.mem_cons_of_mem it hit2, hf⟩

lemma placeRowAt_length (rY g : ℚ) (l : List ArtPiece) : ∀ cX : ℚ,
    (placeRowAt rY g l cX).length = l.length := by
  induction l with
  | nil => intro cX; rfl
  | cons it rest ih => intro cX; simp [placeRowAt, ih]

lemma placeRowAt_y (rY g : ℚ) (l : List ArtPiece) : ∀ cX : ℚ,
    ∀ o ∈ placeRowAt rY g l cX, o.y = rY := by
  induction l with
  | nil => intro cX o ho; cases ho
  | cons it rest ih =>
    intro cX o ho
    rw [placeRowAt] at ho
    rcases List.mem_cons.mp ho with h | h
    · rw [h]
    · exact ih (cX + it.width + g) o h

lemma placeColumnAt_map_id (cX g : ℚ) (l : List ArtPiece) : ∀ cY : ℚ,
    (placeColumnAt cX g l cY).map (fun it => it.id) = l.map (fun it => it.id) := by
  induction l with
  | nil => intro cY; rfl
  | cons it rest ih => intro cY; simp [placeColumnAt, ih]

lemma placeColumnAt_fields (cX g : ℚ) (l : List ArtPiece) : ∀ cY : ℚ,
    FieldsPreserved l (placeColumnAt cX g l cY) := by
  induction l with
  | nil => intro cY; exact fieldsPreserved_nil _
  | cons it rest ih =>
    intro cY o ho
    rw [placeColumnAt] at ho
    rcases List.mem_cons.mp ho with h | h
    · exact ⟨it, List.mem_cons_self it rest, by rw [h]; exact ⟨rfl, rfl, rfl, rfl⟩⟩
    · obtain ⟨it2, hit2, hf⟩ := ih (cY + it.height + g) o h
      exact ⟨it2, List.mem_cons_of_mem it hit2, hf⟩

lemma quadrantLoop_map_id (cX cY mR mL mT mB : ℚ) (l : List ArtPiece) : ∀ i : ℕ,
    (quadrantLoop cX cY mR mL mT mB l i).map (fun it => it.id)
      = l.map (fun it => it.id) := by
  induction l with
  | nil => intro i; rfl
  | cons it rest ih =>
    intro i
    rw [quadrantLoop]
    rcases h : i % 4 with _ | _ | _ | k
    · simp [ih]
    · simp [ih]
    · simp [ih]
    · rcases k with _ | k2 <;> simp [ih]

lemma quadrantLoop_fields (cX cY mR mL mT mB : ℚ) (l : List ArtPiece) : ∀ i : ℕ,
    FieldsPreserved l (quadrantLoop cX cY mR mL mT mB l i) := by
  induction l with
  | nil => intro i; exact fieldsPreserved_nil _
  | cons it rest ih =>
    intro i o ho
    rw [quadrantLoop] at ho
    rcases List.mem_cons.mp ho with h | h
    · refine ⟨it, List.mem_cons_self it rest, ?_⟩
      rw [h]
      rcases hm : i % 4 with _ | _ | _ | k
      · exact ⟨rfl, rfl, rfl, rfl⟩
      · exact ⟨rfl, rfl, rfl, rfl⟩
      · exact ⟨rfl, rfl, rfl, rfl⟩
      · rcases k with _ | k2 <;> exact ⟨rfl, rfl, rfl, rfl⟩
    · obtain ⟨it2, hit2, hf⟩ := ih (i + 1) o h
      exact ⟨it2, List.mem_cons_of_mem it hit2, hf⟩

lemma pyramidLoop_map_id (cX tY g : ℚ) (l : List ArtPiece) : ∀ i : ℕ,
    (pyramidLoop cX tY g l i).map (fun it => it.id) = l.map (fun it => it.id) := by
  induction l with
  | nil => intro i; rfl
  | cons it rest ih =>
    intro i
    rw [pyramidLoop]
    by_cases h : i % 2 = 0 <;> simp [h, ih]

lemma pyramidLoop_fields (cX tY g : ℚ) (l : List ArtPiece) : ∀ i : ℕ,
    FieldsPreserved l (pyramidLoop cX tY g l i) := by
  induction l with
  | nil => intro i; exact fieldsPreserved_nil _
  | cons it rest ih =>
    intro i o ho
    rw [pyramidLoop] at ho
    rcases List.mem_cons.mp ho with h | h
    · refine ⟨it, List.mem_cons_self it rest, ?_⟩
      rw [h]
      by_cases hc : i % 2 = 0
      · rw [if_pos hc]; exact ⟨rfl, rfl, rfl, rfl⟩
      · rw [if_neg hc]; exact ⟨rfl, rfl, rfl, rfl⟩
    · obtain ⟨it2, hit2, hf⟩ := ih (i + 1) o h
      exact ⟨it2, List.mem_cons_of_mem it hit2, hf⟩

lemma stairsLoop_map_id (l : List ArtPiece) : ∀ cX cY : ℚ,
    (stairsLoop l cX cY).map (fun it => it.id) = l.map (fun it => it.id) := by
  induction l with
  | nil => intro cX cY; rfl
  | cons it rest ih => intro cX cY; simp [stairsLoop, ih]

lemma stairsLoop_fields (l : List ArtPiece) : ∀ cX cY : ℚ,
    FieldsPreserved l (stairsLoop l cX cY) := by
  induction l with
  | nil => intro cX cY; exact fieldsPreserved_nil _
  | cons it rest ih =>
    intro cX cY o ho
    rw [stairsLoop] at ho
    rcases List.mem_cons.mp ho with h | h
    · exact ⟨it, List.mem_cons_self it rest, by rw [h]; exact ⟨rfl, rfl, rfl, rfl⟩⟩
    · obtain ⟨it2, hit2, hf⟩ := ih _ _ o h
      exact ⟨it2, List.mem_cons_of_mem it hit2, hf⟩

lemma bigCenterLoop_map_id (lX rX g : ℚ) (l : List ArtPiece) : ∀ lY rY : ℚ, ∀ i : ℕ,
    (bigCenterLoop lX rX g l lY rY i).map (fun it => it.id)
      = l.map (fun it => it.id) := by
  induction l with
  | nil => intro lY rY i; rfl
  | cons it rest ih =>
    intro lY rY i
    rw [bigCenterLoop]
    by_cases h : i % 2 = 0 <;> simp [h, ih]

lemma bigCenterLoop_fields (lX rX g : ℚ) (l : List ArtPiece) : ∀ lY rY : ℚ, ∀ i : ℕ,
    FieldsPreserved l (bigCenterLoop lX rX g l lY rY i) := by
  induction l with
  | nil => intro lY rY i; exact fieldsPreserved_nil _
  | cons it rest ih =>
    intro lY rY i o ho
    rw [bigCenterLoop] at ho
    by_cases hc : i % 2 = 0
    · rw [if_pos hc] at ho
      rcases List.mem_cons.mp ho with h | h
      · exact ⟨it, List.mem_cons_self it rest, by rw [h]; exact ⟨rfl, rfl, rfl, rfl⟩⟩
      · obtain ⟨it2, hit2, hf⟩ := ih _ _ _ o h
        exact ⟨it2, List.mem_cons_of_mem it hit2, hf⟩
    · rw [if_neg hc] at ho
      rcases List.mem_cons.mp ho with h | h
      · exact ⟨it, List.mem_cons_self it rest, by rw [h]; exact ⟨rfl, rfl, rfl, rfl⟩⟩
      · obtain ⟨it2, hit2, hf⟩ := ih _ _ _ o h
        exact ⟨it2, List.mem_cons_of_mem it hit2, hf⟩

lemma stairsTemplateLoop_map_id (g : ℚ) (l : List ArtPiece) : ∀ cx cy : ℚ,
    (stairsTemplateLoop g l cx cy).map (fun it => it.id)
      = l.map (fun it => it.id) := by
  induction l with
  | nil => intro cx cy; rfl
  | cons it rest ih => intro cx cy; simp [stairsTemplateLoop, ih]

lemma stairsTemplateLoop_fields (g : ℚ) (l : List ArtPiece) : ∀ cx cy : ℚ,
    FieldsPreserved l (stairsTemplateLoop g l cx cy) := by
  induction l with
  | nil => intro cx cy; exact fieldsPreserved_nil _
  | cons it rest ih =>
    intro cx cy o ho
    rw [stairsTemplateLoop] at ho
    rcases List.mem_cons.mp ho with h | h
    · exact ⟨it, List.mem_cons_self it rest, by rw [h]; exact ⟨rfl, rfl, rfl, rfl⟩⟩
    · obtain ⟨it2, hit2, hf⟩ := ih _ _ o h
      exact ⟨it2, List.mem_cons_of_mem it hit2, hf⟩

lemma sortByAreaDesc_perm (items : List ArtPiece) :
    List.Perm (sortByAreaDesc items) items :=
  List.mergeSort_perm items _

lemma sortByAreaDesc_pairwise (items : List ArtPiece) :
    (sortByAreaDesc items).Pairwise
      (fun a b => b.width * b.height ≤ a.width * a.height) := by
  have h := @List.sorted_mergeSort ArtPiece
    (fun a b : ArtPiece => decide (b.width * b.height ≤ a.width * a.height))
    (fun a b c h1 h2 => by
      simp only [decide_eq_true_eq] at h1 h2 ⊢
      exact le_trans h2 h1)
    (fun a b => by
      simp only [Bool.or_eq_true, decide_eq_true_eq]
      exact le_total (b.width * b.height) (a.width * a.height))
    items
  refine h.imp ?_
  intro a b hb
  simpa using hb

end LayoutEngine

/-! ## Claim theorems for calibration and placement -/

instance : Inhabited ArtPiece :=
  ⟨{ id := 0, url := "", x := 0, y := 0, width := 0, height := 0 }⟩

/-- Claim C2 (code-bug record): `calculatePixelsPerInch` silently returns the
`0` fallback at `referenceInches = 0` instead of failing with an
`InvalidReferenceLength` error, and silently returns a negative ratio for a
negative reference length; for a positive reference it does return
`referencePixels / referenceInches` (the spec scenario `200px / 80in`
gives `2.5`). -/
theorem C2_pixelsPerInch_silent_zero :
    LayoutEngine.calculatePixelsPerInch 200 0 = 0 ∧
    LayoutEngine.calculatePixelsPerInch 200 (-80) = -(5 / 2) ∧
    LayoutEngine.calculatePixelsPerInch 200 80 = 5 / 2 := by
  refine ⟨?_, ?_, ?_⟩ <;> norm_num [LayoutEngine.calculatePixelsPerInch]

/-- Claim C4 counterexample: with the floor unset (`floorY = 0`), canvas
height `960` and effective ppi `10`, `getCenterLineY` returns `360`, not
the `390` the claim computes from a caller-supplied 57-inch distance: the
distance from the floor is hardwired to `60` inches in the code. -/
theorem C4_centerline_counterexample :
    getCenterLineY 0 1 10 960 = 360 ∧ (360 : ℚ) ≠ 390 := by
  constructor
  · norm_num [getCenterLineY, LayoutEngine.inchesToPixels]
  · norm_num

/-- Claim C4 amended: the centerline is
`effectiveFloorY - inchesToPixels(60, ppi)` where `effectiveFloorY` is
`floorY * scaleFactor` when a floor reference was set (`floorY > 0`) and
`canvasHeight` otherwise; the 60-inch distance is a constant hardwired in
the function, and in the concrete scenario (floor unset, canvas 960,
ppi 10) the result is `960 - 600 = 360`. -/
theorem C4_centerline_amended (floorY scale activePPI canvasHeight : ℚ) :
    getCenterLineY floorY scale activePPI canvasHeight
      = (if floorY > 0 then floorY * scale else canvasHeight) - 60 * activePPI ∧
    getCenterLineY 0 1 10 960 = 360 := by
  constructor
  · unfold getCenterLineY LayoutEngine.inchesToPixels
    rfl
  · norm_num [getCenterLineY, LayoutEngine.inchesToPixels]

/-- Claim C9: converting inches to pixels and back is the identity for every
value and every `ppi > 0`. -/
theorem C9_calibration_roundtrip (v ppi : ℚ) (h : 0 < ppi) :
    LayoutEngine.pixelsToInches (LayoutEngine.inchesToPixels v ppi) ppi = v := by
  unfold LayoutEngine.inchesToPixels LayoutEngine.pixelsToInches
  rw [if_neg (ne_of_gt h)]
  field_simp

/-- Witness for C9 at the spec scenario `ppi = 2.5`. -/
theorem C9_calibration_roundtrip_witness :
    (0 : ℚ) < 5 / 2 ∧
    LayoutEngine.pixelsToInches (LayoutEngine.inchesToPixels 160 (5 / 2)) (5 / 2) = 160 :=
  ⟨by norm_num, C9_calibration_roundtrip 160 (5 / 2) (by norm_num)⟩

/-- Lemma: `suggestSpotPlace` on a non-empty list is a single uniform translation
of every piece. -/
lemma suggestSpotPlace_cons (p0 : ArtPiece) (rest : List ArtPiece) (hx hy : ℚ) :
    suggestSpotPlace (p0 :: rest) hx hy
      = (p0 :: rest).map (fun p => { p with
          x := p.x + (hx - (minXAux rest p0.x + maxXAux rest (p0.x + p0.width)) / 2),
          y := p.y + (hy - (minYAux rest p0.y + maxYAux rest (p0.y + p0.height)) / 2) }) :=
  rfl

lemma map_translate_spec (l : List ArtPiece) (dx dy : ℚ) (i : ℕ) (hi : i < l.length) :
    ((l.map (fun p => ({ p with x := p.x + dx, y := p.y + dy } : ArtPiece))).getD i default).x
        = (l.getD i default).x + dx ∧
    ((l.map (fun p => ({ p with x := p.x + dx, y := p.y + dy } : ArtPiece))).getD i default).y
        = (l.getD i default).y + dy ∧
    ((l.map (fun p => ({ p with x := p.x + dx, y := p.y + dy } : ArtPiece))).getD i default).width
        = (l.getD i default).width ∧
    ((l.map (fun p => ({ p with x := p.x + dx, y := p.y + dy } : ArtPiece))).getD i default).height
        = (l.getD i default).height := by
  have hi2 : i < (l.map (fun p => ({ p with x := p.x + dx, y := p.y + dy } : ArtPiece))).length := by
    rw [List.length_map]
    exact hi
  rw [List.getD_eq_getElem _ _ hi2, List.getD_eq_getElem _ _ hi, List.getElem_map]
  exact ⟨rfl, rfl, rfl, rfl⟩

/-- Claim C7: anchor-based auto-placement applies the same translation to
every piece of a non-empty set, for every hang point the anchor rule can
produce: the output has the same length, all pairwise offsets in `x` and
`y` are unchanged, and every width and height is unchanged. -/
theorem C7_suggestSpot_translation (pieces : List ArtPiece) (hx hy : ℚ)
    (hne : pieces ≠ []) :
    (suggestSpotPlace pieces hx hy).length = pieces.length ∧
    ∀ i j : ℕ, i < pieces.length → j < pieces.length →
      ((suggestSpotPlace pieces hx hy).getD i default).x
          - ((suggestSpotPlace pieces hx hy).getD j default).x
        = (pieces.getD i default).x - (pieces.getD j default).x ∧
      ((suggestSpotPlace pieces hx hy).getD i default).y
          - ((suggestSpotPlace pieces hx hy).getD j default).y
        = (pieces.getD i default).y - (pieces.getD j default).y ∧
      ((suggestSpotPlace pieces hx hy).getD i default).width
        = (pieces.getD i default).width ∧
      ((suggestSpotPlace pieces hx hy).getD i default).height
        = (pieces.getD i default).height := by
  cases pieces with
  | nil => exact absurd rfl hne
  | cons p0 rest =>
    rw [suggestSpotPlace_cons]
    constructor
    · rw [List.length_map]
    · intro i j hi hj
      obtain ⟨hxi, hyi, hwi, hhi⟩ := map_translate_spec (p0 :: rest) _ _ i hi
      obtain ⟨hxj, hyj, hwj, hhj⟩ := map_translate_spec (p0 :: rest) _ _ j hj
      rw [hxi, hyi, hwi, hhi, hxj, hyj]
      refine ⟨by ring, by ring, rfl, rfl⟩

/-- A concrete piece for witnesses. -/
def wpA : ArtPiece := { id := 1, url := "a", x := 0, y := 0, width := 10, height := 20 }

/-- A second concrete piece for witnesses. -/
def wpB : ArtPiece := { id := 2, url := "b", x := 30, y := 5, width := 8, height := 6 }

/-- Witness for C7 with two concrete pieces and hang point `(100, 50)`. -/
theorem C7_suggestSpot_translation_witness :
    ([wpA, wpB] : List ArtPiece) ≠ [] ∧
    ((suggestSpotPlace [wpA, wpB] 100 50).length = ([wpA, wpB] : List ArtPiece).length ∧
    ∀ i j : ℕ, i < ([wpA, wpB] : List ArtPiece).length →
      j < ([wpA, wpB] : List ArtPiece).length →
      ((suggestSpotPlace [wpA, wpB] 100 50).getD i default).x
          - ((suggestSpotPlace [wpA, wpB] 100 50).getD j default).x
        = (([wpA, wpB] : List ArtPiece).getD i default).x
          - (([wpA, wpB] : List ArtPiece).getD j default).x ∧
      ((suggestSpotPlace [wpA, wpB] 100 50).getD i default).y
          - ((suggestSpotPlace [wpA, wpB] 100 50).getD j default).y
        = (([wpA, wpB] : List ArtPiece).getD i default).y
          - (([wpA, wpB] : List ArtPiece).getD j default).y ∧
      ((suggestSpotPlace [wpA, wpB] 100 50).getD i default).width
        = (([wpA, wpB] : List ArtPiece).getD i default).width ∧
      ((suggestSpotPlace [wpA, wpB] 100 50).getD i default).height
        = (([wpA, wpB] : List ArtPiece).getD i default).height) :=
  ⟨by simp, C7_suggestSpot_translation [wpA, wpB] 100 50 (by simp)⟩

/-- Claim C5: the balanced-grid variant (variant 0) places exactly
`ceil(n/2)` items in row 1, all at `y = startY`, and the remaining items
in row 2 at a single y-coordinate that exceeds `startY` by at least each
row-1 item's height plus the pixel gap (so strictly below row 1). -/
theorem C5_grid_balance (items : List ArtPiece) (startX startY gapInches ppi : ℚ)
    (hh : ∀ it ∈ items, 0 < it.height) (hg : 0 < gapInches * ppi) :
    (LayoutEngine.arrangeGrid items startX startY gapInches ppi 0).length = items.length ∧
    ((LayoutEngine.arrangeGrid items startX startY gapInches ppi 0).take
        ((items.length + 1) / 2)).length = (items.length + 1) / 2 ∧
    (∀ it ∈ (LayoutEngine.arrangeGrid items startX startY gapInches ppi 0).take
        ((items.length + 1) / 2), it.y = startY) ∧
    ∃ row2Y : ℚ,
      (∀ it ∈ (LayoutEngine.arrangeGrid items startX startY gapInches ppi 0).drop
          ((items.length + 1) / 2), it.y = row2Y) ∧
      startY < row2Y ∧
      ∀ it ∈ (LayoutEngine.arrangeGrid items startX startY gapInches ppi 0).take
          ((items.length + 1) / 2),
        startY + it.height + gapInches * ppi ≤ row2Y := by
  have hred : LayoutEngine.arrangeGrid items startX startY gapInches ppi 0
      = (LayoutEngine.gridRow1 startY (gapInches * ppi)
          (items.take ((items.length + 1) / 2)) startX 0).1
        ++ LayoutEngine.placeRowAt
            (startY + (LayoutEngine.gridRow1 startY (gapInches * ppi)
              (items.take ((items.length + 1) / 2)) startX 0).2 + gapInches * ppi)
            (gapInches * ppi) (items.drop ((items.length + 1) / 2)) startX := by
    simp [LayoutEngine.arrangeGrid]
  have hlen1 : (LayoutEngine.gridRow1 startY (gapInches * ppi)
      (items.take ((items.length + 1) / 2)) startX 0).1.length
        = (items.length + 1) / 2 := by
    rw [LayoutEngine.gridRow1_length, List.length_take]
    omega
  have htake : (LayoutEngine.arrangeGrid items startX startY gapInches ppi 0).take
      ((items.length + 1) / 2)
        = (LayoutEngine.gridRow1 startY (gapInches * ppi)
            (items.take ((items.length + 1) / 2)) startX 0).1 := by
    rw [hred]
    exact List.take_left' hlen1
  have hdrop : (LayoutEngine.arrangeGrid items startX startY gapInches ppi 0).drop
      ((items.length + 1) / 2)
        = LayoutEngine.placeRowAt
            (startY + (LayoutEngine.gridRow1 startY (gapInches * ppi)
              (items.take ((items.length + 1) / 2)) startX 0).2 + gapInches * ppi)
            (gapInches * ppi) (items.drop ((items.length + 1) / 2)) startX := by
    rw [hred]
    exact List.drop_left' hlen1
  refine ⟨?_, ?_, ?_, ?_⟩
  · rw [hred, List.length_append, LayoutEngine.gridRow1_length,
      LayoutEngine.placeRowAt_length, List.length_take, List.length_drop]
    omega
  · rw [htake, hlen1]
  · rw [htake]
    exact LayoutEngine.gridRow1_y startY (gapInches * ppi) _ startX 0
  · refine ⟨startY + (LayoutEngine.gridRow1 startY (gapInches * ppi)
      (items.take ((items.length + 1) / 2)) startX 0).2 + gapInches * ppi, ?_, ?_, ?_⟩
    · rw [hdrop]
      exact LayoutEngine.placeRowAt_y _ (gapInches * ppi) _ startX
    · have h0 : (0 : ℚ) ≤ (LayoutEngine.gridRow1 startY (gapInches * ppi)
          (items.take ((items.length + 1) / 2)) startX 0).2 :=
        LayoutEngine.gridRow1_snd_ge startY (gapInches * ppi) _ startX 0
      linarith
    · intro it hit
      rw [htake] at hit
      have hle := LayoutEngine.gridRow1_height_le startY (gapInches * ppi)
        (items.take ((items.length + 1) / 2)) startX 0 it hit
      linarith

/-- A third concrete piece for witnesses. -/
def wpC : ArtPiece := { id := 3, url := "c", x := 2, y := 3, width := 4, height := 5 }

set_option maxRecDepth 10000 in
attribute [local semireducible] Rat.add Rat.mul Rat.inv Rat.sub in
/-- Witness for C5 on three concrete pieces with positive heights and a
positive gap. -/
theorem C5_grid_balance_witness :
    (∀ it ∈ ([wpA, wpB, wpC] : List ArtPiece), 0 < it.height) ∧ (0 : ℚ) < 2 * 3 ∧
    ((LayoutEngine.arrangeGrid [wpA, wpB, wpC] 0 10 2 3 0).length
        = ([wpA, wpB, wpC] : List ArtPiece).length ∧
    ((LayoutEngine.arrangeGrid [wpA, wpB, wpC] 0 10 2 3 0).take
        ((([wpA, wpB, wpC] : List ArtPiece).length + 1) / 2)).length
        = (([wpA, wpB, wpC] : List ArtPiece).length + 1) / 2 ∧
    (∀ it ∈ (LayoutEngine.arrangeGrid [wpA, wpB, wpC] 0 10 2 3 0).take
        ((([wpA, wpB, wpC] : List ArtPiece).length + 1) / 2), it.y = 10) ∧
    ∃ row2Y : ℚ,
      (∀ it ∈ (LayoutEngine.arrangeGrid [wpA, wpB, wpC] 0 10 2 3 0).drop
          ((([wpA, wpB, wpC] : List ArtPiece).length + 1) / 2), it.y = row2Y) ∧
      (10 : ℚ) < row2Y ∧
      ∀ it ∈ (LayoutEngine.arrangeGrid [wpA, wpB, wpC] 0 10 2 3 0).take
          ((([wpA, wpB, wpC] : List ArtPiece).length + 1) / 2),
        (10 : ℚ) + it.height + 2 * 3 ≤ row2Y) :=
  ⟨by decide, by norm_num,
    C5_grid_balance [wpA, wpB, wpC] 0 10 2 3 (by decide) (by norm_num)⟩

/-- Claim C6: in the quadrant/spiral mosaic variant (variant 0), the first
placed item is a maximal-area input item, positioned so that it is centred
exactly at `(centerX, centerY)`, whatever the order of the input list. -/
theorem C6_mosaic_anchor_centering (items : List ArtPiece)
    (centerX centerY gapInches ppi : ℚ) (hne : items ≠ []) :
    ∃ m ∈ items, (∀ it ∈ items, it.width * it.height ≤ m.width * m.height) ∧
      (LayoutEngine.arrangeMosaic items centerX centerY gapInches ppi 0).head?
        = some { m with x := centerX - m.width / 2, y := centerY - m.height / 2 } := by
  have hlen : ¬ items.length = 0 := fun h => hne (List.length_eq_zero.mp h)
  rcases hsorted : LayoutEngine.sortByAreaDesc items with _ | ⟨main, others⟩
  · exfalso
    have hperm := LayoutEngine.sortByAreaDesc_perm items
    rw [hsorted] at hperm
    exact hne hperm.symm.eq_nil
  · have hmem : main ∈ items := by
      have h1 : main ∈ LayoutEngine.sortByAreaDesc items := by
        rw [hsorted]
        exact List.mem_cons_self main others
      exact (LayoutEngine.sortByAreaDesc_perm items).subset h1
    have hpw := LayoutEngine.sortByAreaDesc_pairwise items
    rw [hsorted] at hpw
    obtain ⟨hmax, _⟩ := List.pairwise_cons.mp hpw
    refine ⟨main, hmem, ?_, ?_⟩
    · intro it hit
      have h2 : it ∈ LayoutEngine.sortByAreaDesc items :=
        (LayoutEngine.sortByAreaDesc_perm items).symm.subset hit
      rw [hsorted] at h2
      rcases List.mem_cons.mp h2 with h | h
      · rw [h]
      · exact hmax it h
    · simp only [LayoutEngine.arrangeMosaic]
      rw [if_neg hlen, hsorted]
      simp

set_option maxRecDepth 10000 in
unseal List.mergeSort List.merge in
attribute [local semireducible] Rat.add Rat.mul Rat.inv Rat.sub in
/-- Witness for C6: with the smaller piece listed first, the anchor of the
quadrant mosaic is still the larger piece, centred at the given centre. -/
theorem C6_mosaic_anchor_centering_witness :
    ([wpB, wpA] : List ArtPiece) ≠ [] ∧
    ∃ m ∈ ([wpB, wpA] : List ArtPiece),
      (∀ it ∈ ([wpB, wpA] : List ArtPiece),
        it.width * it.height ≤ m.width * m.height) ∧
      (LayoutEngine.arrangeMosaic [wpB, wpA] 7 9 1 2 0).head?
        = some { m with x := 7 - m.width / 2, y := 9 - m.height / 2 } :=
  ⟨by simp, C6_mosaic_anchor_centering [wpB, wpA] 7 9 1 2 (by simp)⟩

namespace LayoutEngine

lemma arrangeGrid_map_id (items : List ArtPiece) (sX sY gi p : ℚ) (variant : ℕ) :
    (arrangeGrid items sX sY gi p variant).map (fun it => it.id)
      = items.map (fun it => it.id) := by
  simp only [arrangeGrid]
  by_cases h0 : variant % 3 = 0
  · rw [if_pos h0, List.map_append, gridRow1_map_id, placeRowAt_map_id,
      ← List.map_append, List.take_append_drop]
  · rw [if_neg h0]
    by_cases h1 : variant % 3 = 1
    · rw [if_pos h1, placeRowAt_map_id]
    · rw [if_neg h1, placeColumnAt_map_id]

lemma arrangeMosaic_map_id_perm (items : List ArtPiece) (cX cY gi p : ℚ) (variant : ℕ) :
    List.Perm ((arrangeMosaic items cX cY gi p variant).map (fun it => it.id))
      (items.map (fun it => it.id)) := by
  simp only [arrangeMosaic]
  by_cases hlen : items.length = 0
  · rw [if_pos hlen]
  · rw [if_neg hlen]
    have hperm := (sortByAreaDesc_perm items).map (fun it => it.id)
    by_cases h0 : variant % 3 = 0
    · rw [if_pos h0]
      rcases hsorted : sortByAreaDesc items with _ | ⟨main, others⟩
      · exfalso
        have hp := sortByAreaDesc_perm items
        rw [hsorted] at hp
        exact hlen (by rw [hp.symm.eq_nil]; rfl)
      · rw [hsorted] at hperm
        simp only [List.map_cons, quadrantLoop_map_id] at hperm ⊢
        exact hperm
    · rw [if_neg h0]
      by_cases h1 : variant % 3 = 1
      · rw [if_pos h1]
        rcases hsorted : sortByAreaDesc items with _ | ⟨main, others⟩
        · exfalso
          have hp := sortByAreaDesc_perm items
          rw [hsorted] at hp
          exact hlen (by rw [hp.symm.eq_nil]; rfl)
        · rw [hsorted] at hperm
          simp only [List.map_cons, pyramidLoop_map_id] at hperm ⊢
          exact hperm
      · rw [if_neg h1, stairsLoop_map_id]

lemma applyTemplate_map_id_perm (items : List ArtPiece) (name : String)
    (cfg : TemplateConfig) :
    List.Perm ((applyTemplate items name cfg).map (fun it => it.id))
      (items.map (fun it => it.id)) := by
  have hperm := (sortByAreaDesc_perm items).map (fun it => it.id)
  simp only [applyTemplate]
  by_cases h1 : name = "row"
  · rw [if_pos h1, placeRowAt_map_id]
  rw [if_neg h1]
  by_cases h2 : name = "grid"
  · rw [if_pos h2, arrangeGrid_map_id]
  rw [if_neg h2]
  by_cases h3 : name = "big-left"
  · rw [if_pos h3]
    rcases hsorted : sortByAreaDesc items with _ | ⟨main, others⟩
    · have hp := sortByAreaDesc_perm items
      rw [hsorted] at hp
      rw [hp.symm.eq_nil]
    · rw [hsorted] at hperm
      simp only [List.map_cons, placeColumnAt_map_id] at hperm ⊢
      exact hperm
  rw [if_neg h3]
  by_cases h4 : name = "big-right"
  · rw [if_pos h4]
    rcases hsorted : sortByAreaDesc items with _ | ⟨main, others⟩
    · have hp := sortByAreaDesc_perm items
      rw [hsorted] at hp
      rw [hp.symm.eq_nil]
    · rw [hsorted] at hperm
      simp only [List.map_cons] at hperm
      simp only [List.map_append, placeColumnAt_map_id, List.map_cons, List.map_nil]
      exact (List.perm_append_singleton _ _).trans hperm
  rw [if_neg h4]
  by_cases h5 : name = "big-center"
  · rw [if_pos h5]
    rcases hsorted : sortByAreaDesc items with _ | ⟨main, others⟩
    · have hp := sortByAreaDesc_perm items
      rw [hsorted] at hp
      rw [hp.symm.eq_nil]
    · rw [hsorted] at hperm
      simp only [List.map_cons, bigCenterLoop_map_id] at hperm ⊢
      exact hperm
  rw [if_neg h5]
  by_cases h6 : name = "stairs"
  · rw [if_pos h6, stairsTemplateLoop_map_id]
  · rw [if_neg h6]

end LayoutEngine

set_option maxRecDepth 10000 in
unseal List.mergeSort List.merge in
attribute [local semireducible] Rat.add Rat.mul Rat.inv Rat.sub in
/-- Claim C8 counterexample: `arrangeMosaic` (quadrant variant) does not
return its output in input identity order — with the smaller piece listed
first, the output leads with the larger piece. -/
theorem C8_identity_order_counterexample :
    (LayoutEngine.arrangeMosaic [wpB, wpA] 0 0 0 1 0).map (fun it => it.id) = [1, 2] ∧
    ([wpB, wpA] : List ArtPiece).map (fun it => it.id) = [2, 1] ∧
    (LayoutEngine.arrangeMosaic [wpB, wpA] 0 0 0 1 0).map (fun it => it.id)
      ≠ ([wpB, wpA] : List ArtPiece).map (fun it => it.id) := by
  refine ⟨?_, ?_, ?_⟩ <;> decide

/-- Claim C8 amended: every layout operation returns a new list of the same
length carrying exactly the same identities; `autoArrangeUniform` and
`arrangeGrid` keep the input identity order, while `arrangeMosaic` and the
`big-*` templates emit the area-sorted order, so identity order is only
preserved up to permutation there. -/
theorem C8_length_and_identity (items : List ArtPiece) (sX sY gi p cX cY : ℚ)
    (variant : ℕ) (name : String) (cfg : LayoutEngine.TemplateConfig) :
    (LayoutEngine.autoArrangeUniform items sX gi p).length = items.length ∧
    (LayoutEngine.autoArrangeUniform items sX gi p).map (fun it => it.id)
      = items.map (fun it => it.id) ∧
    (LayoutEngine.arrangeGrid items sX sY gi p variant).length = items.length ∧
    (LayoutEngine.arrangeGrid items sX sY gi p variant).map (fun it => it.id)
      = items.map (fun it => it.id) ∧
    (LayoutEngine.arrangeMosaic items cX cY gi p variant).length = items.length ∧
    List.Perm ((LayoutEngine.arrangeMosaic items cX cY gi p variant).map (fun it => it.id))
      (items.map (fun it => it.id)) ∧
    (LayoutEngine.applyTemplate items name cfg).length = items.length ∧
    List.Perm ((LayoutEngine.applyTemplate items name cfg).map (fun it => it.id))
      (items.map (fun it => it.id)) := by
  have h1 := LayoutEngine.uniformLoop_map_id (gi * p) items sX
  have h2 := LayoutEngine.arrangeGrid_map_id items sX sY gi p variant
  have h3 := LayoutEngine.arrangeMosaic_map_id_perm items cX cY gi p variant
  have h4 := LayoutEngine.applyTemplate_map_id_perm items name cfg
  refine ⟨?_, h1, ?_, h2, ?_, h3, ?_, h4⟩
  · have := congrArg List.length h1
    simpa using this
  · have := congrArg List.length h2
    simpa using this
  · have := h3.length_eq
    simpa using this
  · have := h4.length_eq
    simpa using this

namespace LayoutEngine

lemma arrangeGrid_fields (items : List ArtPiece) (sX sY gi p : ℚ) (variant : ℕ) :
    FieldsPreserved items (arrangeGrid items sX sY gi p variant) := by
  simp only [arrangeGrid]
  by_cases h0 : variant % 3 = 0
  · rw [if_pos h0]
    refine fieldsPreserved_append ?_ ?_
    · exact fieldsPreserved_mono (gridRow1_fields sY (gi * p) _ sX 0)
        (fun it hit => List.mem_of_mem_take hit)
    · exact fieldsPreserved_mono (placeRowAt_fields _ (gi * p) _ sX)
        (fun it hit => List.mem_of_mem_drop hit)
  · rw [if_neg h0]
    by_cases h1 : variant % 3 = 1
    · rw [if_pos h1]
      exact placeRowAt_fields sY (gi * p) items sX
    · rw [if_neg h1]
      exact placeColumnAt_fields sX (gi * p) items sY

lemma arrangeMosaic_fields (items : List ArtPiece) (cX cY gi p : ℚ) (variant : ℕ) :
    FieldsPreserved items (arrangeMosaic items cX cY gi p variant) := by
  simp only [arrangeMosaic]
  by_cases hlen : items.length = 0
  · rw [if_pos hlen]
    exact fieldsPreserved_refl items
  · rw [if_neg hlen]
    have hsub : ∀ it ∈ sortByAreaDesc items, it ∈ items :=
      fun it hit => (sortByAreaDesc_perm items).subset hit
    by_cases h0 : variant % 3 = 0
    · rw [if_pos h0]
      rcases hsorted : sortByAreaDesc items with _ | ⟨main, others⟩
      · exact fieldsPreserved_nil items
      · intro o ho
        rcases List.mem_cons.mp ho with h | h
        · refine ⟨main, hsub main (by rw [hsorted]; exact List.mem_cons_self main others), ?_⟩
          rw [h]
          exact ⟨rfl, rfl, rfl, rfl⟩
        · obtain ⟨it2, hit2, hf⟩ := quadrantLoop_fields cX cY _ _ _ _ others 0 o h
          exact ⟨it2, hsub it2 (by rw [hsorted]; exact List.mem_cons_of_mem main hit2), hf⟩
    · rw [if_neg h0]
      by_cases h1 : variant % 3 = 1
      · rw [if_pos h1]
        rcases hsorted : sortByAreaDesc items with _ | ⟨main, others⟩
        · exact fieldsPreserved_nil items
        · intro o ho
          rcases List.mem_cons.mp ho with h | h
          · refine ⟨main, hsub main (by rw [hsorted]; exact List.mem_cons_self main others), ?_⟩
            rw [h]
            exact ⟨rfl, rfl, rfl, rfl⟩
          · obtain ⟨it2, hit2, hf⟩ := pyramidLoop_fields cX (cY - gi * p) (gi * p) others 0 o h
            exact ⟨it2, hsub it2 (by rw [hsorted]; exact List.mem_cons_of_mem main hit2), hf⟩
      · rw [if_neg h1]
        exact stairsLoop_fields items _ _

lemma applyTemplate_fields (items : List ArtPiece) (name : String)
    (cfg : TemplateConfig) :
    FieldsPreserved items (applyTemplate items name cfg) := by
  have hsub : ∀ it ∈ sortByAreaDesc items, it ∈ items :=
    fun it hit => (sortByAreaDesc_perm items).subset hit
  simp only [applyTemplate]
  by_cases h1 : name = "row"
  · rw [if_pos h1]
    exact placeRowAt_fields _ _ items _
  rw [if_neg h1]
  by_cases h2 : name = "grid"
  · rw [if_pos h2]
    exact arrangeGrid_fields items cfg.startX cfg.startY cfg.gapInches cfg.ppi 0
  rw [if_neg h2]
  by_cases h3 : name = "big-left"
  · rw [if_pos h3]
    rcases hsorted : sortByAreaDesc items with _ | ⟨main, others⟩
    · exact fieldsPreserved_nil items
    · intro o ho
      rcases List.mem_cons.mp ho with h | h
      · refine ⟨main, hsub main (by rw [hsorted]; exact List.mem_cons_self main others), ?_⟩
        rw [h]
        exact ⟨rfl, rfl, rfl, rfl⟩
      · obtain ⟨it2, hit2, hf⟩ := placeColumnAt_fields _ _ others cfg.startY o h
        exact ⟨it2, hsub it2 (by rw [hsorted]; exact List.mem_cons_of_mem main hit2), hf⟩
  rw [if_neg h3]
  by_cases h4 : name = "big-right"
  · rw [if_pos h4]
    rcases hsorted : sortByAreaDesc items with _ | ⟨main, others⟩
    · exact fieldsPreserved_nil items
    · refine fieldsPreserved_append ?_ ?_
      · intro o ho
        obtain ⟨it2, hit2, hf⟩ := placeColumnAt_fields cfg.startX _ others cfg.startY o ho
        exact ⟨it2, hsub it2 (by rw [hsorted]; exact List.mem_cons_of_mem main hit2), hf⟩
      · intro o ho
        rcases List.mem_cons.mp ho with h | h
        · refine ⟨main, hsub main (by rw [hsorted]; exact List.mem_cons_self main others), ?_⟩
          rw [h]
          exact ⟨rfl, rfl, rfl, rfl⟩
        · cases h
  rw [if_neg h4]
  by_cases h5 : name = "big-center"
  · rw [if_pos h5]
    rcases hsorted : sortByAreaDesc items with _ | ⟨main, others⟩
    · exact fieldsPreserved_nil items
    · intro o ho
      rcases List.mem_cons.mp ho with h | h
      · refine ⟨main, hsub main (by rw [hsorted]; exact List.mem_cons_self main others), ?_⟩
        rw [h]
        exact ⟨rfl, rfl, rfl, rfl⟩
      · obtain ⟨it2, hit2, hf⟩ := bigCenterLoop_fields _ _ _ others cfg.startY cfg.startY 0 o h
        exact ⟨it2, hsub it2 (by rw [hsorted]; exact List.mem_cons_of_mem main hit2), hf⟩
  rw [if_neg h5]
  by_cases h6 : name = "stairs"
  · rw [if_pos h6]
    exact stairsTemplateLoop_fields _ items _ _
  · rw [if_neg h6]
    exact fieldsPreserved_refl items

end LayoutEngine

/-- Claim C10 (implicit frame condition): every layout operation of
`LayoutEngine` — `autoArrangeUniform`, every variant of `arrangeGrid` and
`arrangeMosaic`, and `applyTemplate` for every template name — changes
only the `x` and `y` fields: every output item keeps the `id`, `url`,
`width` and `height` of an input item. -/
theorem C10_layout_changes_only_xy (items : List ArtPiece) (sX sY gi p cX cY : ℚ)
    (variant : ℕ) (name : String) (cfg : LayoutEngine.TemplateConfig) :
    FieldsPreserved items (LayoutEngine.autoArrangeUniform items sX gi p) ∧
    FieldsPreserved items (LayoutEngine.arrangeGrid items sX sY gi p variant) ∧
    FieldsPreserved items (LayoutEngine.arrangeMosaic items cX cY gi p variant) ∧
    FieldsPreserved items (LayoutEngine.applyTemplate items name cfg) :=
  ⟨LayoutEngine.uniformLoop_fields (gi * p) items sX,
    LayoutEngine.arrangeGrid_fields items sX sY gi p variant,
    LayoutEngine.arrangeMosaic_fields items cX cY gi p variant,
    LayoutEngine.applyTemplate_fields items name cfg⟩

end Vura
